import Mathlib

/-!
# httpdownloader: range planning, chunk fetching, merging, progress totals

A shallow embedding of `downloader.go`.

Conventions of the embedding.

* `int64` and (64-bit) `int` values are integers; every arithmetic operation of the
  source on them is followed by `wrap64`, the two's complement reduction.
* A byte is a natural number, a file a list of bytes.
* The network is a script: the list of outcomes of the successive `client.Do` calls of
  one fetcher, each successful one carrying the list of results of the successive
  `resp.Body.Read` calls.  A run that has used up its script is `blocked`: it sits in
  the next network call.
* The local disk is reliable in-memory storage: a file operation fails only for a
  reason visible in the state (a missing file, a negative offset), and `os.Create` gives
  an empty file.  One `Read` call on a file transfers at most `maxRW` bytes, the limit
  of package `internal/poll`.  `http.NewRequest` succeeds.
* Values of type `float64` are not modelled: of `printProgress` the integer sums are,
  and the bar test computed in `float64` is a parameter.
* Goroutines are not modelled; each fetcher is modelled on its own, which is sound for
  the fields it alone writes.
-/

namespace HttpDownloader

/-- One byte of file or network data. -/
abbrev Byte := Nat

/-- Two's complement reduction of an integer to the `int64` range. -/
def wrap64 (x : Int) : Int :=
  (x + 9223372036854775808) % 18446744073709551616 - 9223372036854775808

/-- The struct `downloadInfo` (downloader.go, lines 23-30). -/
structure downloadInfo where
  startOffset : Int
  endOffset : Int
  bytesRead : Int
  startTime : Int
  retrying : Bool
  dealt : Int
deriving DecidableEq, Repr

/-- The zero value of `downloadInfo`, as produced by `make`. -/
def downloadInfo.zero : downloadInfo :=
  { startOffset := 0, endOffset := 0, bytesRead := 0, startTime := 0,
    retrying := false, dealt := 0 }

/-- The fields of the struct `Downloader` (lines 32-46) that the modelled code uses.
The field `hash` holds the bytes written to the MD5 state so far, `none` for a nil
hash. -/
structure Downloader where
  url : String
  filePath : String
  numThreads : Int
  checksum : String
  filename : String
  fileSize : Int
  downloadInfos : List downloadInfo
  hash : Option (List Byte)
  done : Bool

/-- How a call ends abnormally: an `error` value returned, or a panic. -/
inductive Failure where
  | error (msg : String)
  | panic (msg : String)
deriving DecidableEq, Repr

/-! ## Range planning (`Start`) -/

/-- Body of the planning loop of `Start` (lines 140-144) for index `i`. -/
def planChunk (fileSize numThreads chunkSize : Int) (i : Nat) : downloadInfo :=
  let startOffset := wrap64 ((i : Int) * chunkSize)
  let endOffset := wrap64 (startOffset + wrap64 (chunkSize - 1))
  { downloadInfo.zero with
    startOffset := startOffset
    endOffset := if (i : Int) = numThreads - 1 then wrap64 (fileSize - 1) else endOffset }

/-- Lines 135-145 of `Start`: the chunk size by truncating division and the
`numThreads` ranges. -/
def planRanges (fileSize numThreads : Int) : List downloadInfo :=
  let chunkSize := wrap64 (Int.tdiv fileSize numThreads)
  (List.range numThreads.toNat).map (planChunk fileSize numThreads chunkSize)

/-- What `Start` reads from the response to its HEAD request.  `redirect` is the final
URL and its `path.Base` when the client followed a redirect (`CheckRedirect`,
lines 81-86). -/
structure HeadResponse where
  contentMd5 : String
  acceptRanges : String
  contentLengthHeader : String
  contentLength : Int
  redirect : Option (String × String)

/-- Outcome of the probing GET `Range: bytes=0-0` of `Start`. -/
inductive ProbeResult where
  | transportError (msg : String)
  | status (code : Nat) (redirect : Option (String × String))

/-- Effect of `CheckRedirect` on the job. -/
def applyRedirect (dl : Downloader) : Option (String × String) → Downloader
  | none => dl
  | some (u, base) => { dl with url := u, filename := base }

/-- The function `checkSupport` (lines 93-102): `true` for a nil error. -/
def checkSupport (resp : HeadResponse) : Bool :=
  resp.acceptRanges == "bytes"

/-- Lines 130-132 of `Start`: a fresh MD5 state when a checksum was captured. -/
def initHash (dl : Downloader) : Downloader :=
  if dl.checksum ≠ "" then { dl with hash := some [] } else dl

/-- The method `Start` (lines 104-180) up to the launch of the fetchers. -/
def Start (dl : Downloader) (head : Except String HeadResponse) (probe : ProbeResult) :
    Except Failure Downloader :=
  match head with
  | .error e => .error (.error ("error while sending HEAD request: " ++ e))
  | .ok resp =>
    if resp.contentLengthHeader = "" then
      .error (.error "could not determine the total length of the file")
    else
      let dl := initHash
        { applyRedirect dl resp.redirect with
          checksum := resp.contentMd5
          fileSize := resp.contentLength }
      if dl.numThreads = (0 : Int) then
        .error (.panic "runtime error: integer divide by zero")
      else if dl.numThreads < (0 : Int) then
        .error (.panic "runtime error: makeslice: len out of range")
      else
        let dl := { dl with downloadInfos := planRanges dl.fileSize dl.numThreads }
        if checkSupport resp then .ok dl
        else
          match probe with
          | .transportError e => .error (.error e)
          | .status code redirect =>
            if code ≠ 206 then .error (.error "不支持分段下载")
            else .ok (applyRedirect dl redirect)

/-! ## The chunk fetcher (`downloadChunk`) -/

/-- The error value returned by `resp.Body.Read`: nil, `io.EOF`, or another error. -/
inductive ReadErr where
  | none
  | eof
  | other (msg : String)
deriving DecidableEq, Repr

/-- Result `(n, err)` of one `resp.Body.Read(buf)`: `data` are the `n` bytes placed at
the front of `buf`, so `n = data.length`. -/
structure ReadResult where
  data : List Byte
  err : ReadErr
deriving DecidableEq, Repr

/-- Outcome of one `dl.client.Do(req)` of a fetcher: an error, or a response whose body
delivers the given read results; `now` is the clock at that moment. -/
inductive ConnResult where
  | failed
  | connected (now : Int) (body : List ReadResult)
deriving DecidableEq, Repr

/-- The closure `updateLeft` (lines 215-217). -/
def updateLeft (info : downloadInfo) : Int :=
  wrap64 (wrap64 (wrap64 (info.endOffset - info.startOffset) + 1) - info.bytesRead)

/-- The closure `isComplete` (lines 219-221). -/
def isComplete (info : downloadInfo) : Bool :=
  updateLeft info == 0

/-- The call `file.WriteAt(b, off)` on an in-memory file: `none` is the error for a
negative offset, a gap is filled with zero bytes. -/
def writeAt (file : List Byte) (b : List Byte) (off : Int) : Option (List Byte) :=
  if off < 0 then none
  else
    let o := off.toNat
    some (file.take o ++ List.replicate (o - file.length) 0 ++ b ++ file.drop (o + b.length))

/-- State of one fetcher: its `downloadInfo`, its part file, and a record of what it
did: the `WriteAt` calls (offset and bytes), the `Range` headers sent (first and last
byte), the value of `bytesRead` after each pass of the streaming loop, and the lines
printed. -/
structure ChunkState where
  info : downloadInfo
  file : List Byte
  writes : List (Int × List Byte)
  requests : List (Int × Int)
  progress : List Int
  log : List String
deriving DecidableEq, Repr

/-- How one pass of the streaming loop ends. -/
inductive Control where
  | next
  | exit
  | panic (msg : String)
deriving DecidableEq, Repr

/-- How a run of `downloadChunk` ends: it returned, it panicked, or it is blocked in a
network call that the script does not answer. -/
inductive Exit where
  | returned
  | panicked (msg : String)
  | blocked
deriving DecidableEq, Repr

/-- Lines 273-289: the end conditions of one pass, on the state after the write. -/
def streamTail (st : ChunkState) (err : ReadErr) : Control × ChunkState :=
  let st := { st with progress := st.progress ++ [st.info.bytesRead] }
  let left := updateLeft st.info
  if err = ReadErr.eof then
    if left > 0 then (.panic "data is not enough", st)
    else if left = 0 then (.exit, st)
    else (.next, st)
  else
    if left = 0 then
      (.exit, { st with log := st.log ++
        ["remote server doesn't implement the protocol properly ( early end )"] })
    else (.next, st)

/-- Lines 264-271: when bytes remain and the read brought some, the positional write of
`buf[:n]` at `bytesRead` and the advance of `bytesRead` by `n`; `none` is the panic of a
failed write. -/
def writeChunk (st : ChunkState) (data : List Byte) (left n : Int) : Option ChunkState :=
  if left > 0 ∧ n > 0 then
    match writeAt st.file (data.take n.toNat) st.info.bytesRead with
    | none => none
    | some file =>
      some
        { st with
          file := file
          writes := st.writes ++ [(st.info.bytesRead, data.take n.toNat)]
          info := { st.info with bytesRead := wrap64 (st.info.bytesRead + n) } }
  else some st

/-- Lines 258-289 of a pass whose read returned `data` and the error `err`, nil or
`io.EOF`: the truncation to the bytes remaining, the write, the end conditions. -/
def streamData (st : ChunkState) (data : List Byte) (err : ReadErr) : Control × ChunkState :=
  let left := updateLeft st.info
  let n : Int := data.length
  let st := if n > left then
      { st with log := st.log ++ ["remote server doesn't implement the protocol properly"] }
    else st
  let n := if n > left then left else n
  match writeChunk st data left n with
  | none => (.panic "error occur while writing in file", st)
  | some st => streamTail st err

/-- One pass of the streaming loop (lines 250-289) on the read result `r`: a non-EOF
error leaves the loop at once (lines 253-256). -/
def streamStep (st : ChunkState) (r : ReadResult) : Control × ChunkState :=
  match r.err with
  | .other e => (.exit, { st with log := st.log ++ ["Error while request: " ++ e] })
  | err => streamData st r.data err

/-- The streaming loop (lines 249-290) over the read results of one response body. -/
def streamLoop (st : ChunkState) : List ReadResult → Control × ChunkState
  | [] => (.next, st)
  | r :: rest =>
    match streamStep st r with
    | (.next, st) => streamLoop st rest
    | out => out

/-- Lines 249-299: the streaming loop, then `resp.Body.Close()` and the completion
test.  A loop that used up the body's read results is blocked in the next `Read`. -/
def streamFrom (st : ChunkState) (body : List ReadResult) : Exit × ChunkState :=
  match streamLoop st body with
  | (.next, st) => (.blocked, st)
  | (.panic msg, st) => (.panicked msg, st)
  | (.exit, st) =>
    if isComplete st.info then (.returned, st)
    else (.panicked "receive data from server is not enough", st)

/-- The outer loop of `downloadChunk` (lines 229-300). -/
def connectLoop (st : ChunkState) : List ConnResult → Exit × ChunkState
  | [] =>
    (.blocked, { st with requests := st.requests ++
      [(wrap64 (st.info.startOffset + st.info.bytesRead), st.info.endOffset)] })
  | .failed :: rest =>
    connectLoop
      { st with
        requests := st.requests ++
          [(wrap64 (st.info.startOffset + st.info.bytesRead), st.info.endOffset)]
        info := { st.info with retrying := true } }
      rest
  | .connected now body :: _ =>
    streamFrom
      { st with
        requests := st.requests ++
          [(wrap64 (st.info.startOffset + st.info.bytesRead), st.info.endOffset)]
        info := { st.info with retrying := false, startTime := now } }
      body

/-- The method `downloadChunk` (lines 201-301) for the chunk `info`, which stands for
`&dl.downloadInfos[threadNum]`: the part file is created empty, then the outer loop
runs against the script of the network. -/
def downloadChunk (info : downloadInfo) (script : List ConnResult) : Exit × ChunkState :=
  connectLoop
    { info := info, file := [], writes := [], requests := [], progress := [], log := [] }
    script

/-! ## Merge and checksum line (`mergeFiles`, `Update`) -/

/-- The files of one job: `parts i` is the part file `filePath_i` (these names are
pairwise distinct, and distinct from the output's), `output` the file
`filePath\filename`; `none` is a file that does not exist. -/
structure Disk where
  parts : Nat → Option (List Byte)
  output : Option (List Byte)

/-- The job, its files, and the lines printed so far. -/
structure World where
  dl : Downloader
  disk : Disk
  stdout : List String

/-- Lines 323-325 of `mergeFiles`: `dl.hash.Write(buf)` when a checksum is set; `none`
is the panic of calling a nil hash. -/
def hashWrite (dl : Downloader) (buf : List Byte) : Option Downloader :=
  if dl.checksum ≠ "" then
    match dl.hash with
    | none => none
    | some written => some { dl with hash := some (written ++ buf) }
  else some dl

/-- The most bytes that one `Read` call on a file transfers: `1 << 30`, the constant
`maxRW` of package `internal/poll`. -/
def maxRW : Nat := 1073741824

/-- Lines 319-321 of `mergeFiles`: a buffer of the size of the part file, all zero, and
one `partFile.Read(buf)` whose results `n` and `err` are dropped.  The call fills the
first `maxRW` bytes at most; the rest of the buffer stays zero. -/
def readOnce (content : List Byte) : List Byte :=
  content.take maxRW ++ List.replicate (content.length - maxRW) 0

/-- The loop of `mergeFiles` (lines 311-338): `k` passes remain, the next index is
`i`. -/
def mergeLoop (w : World) : Nat → Nat → Option Failure × World
  | 0, _ => (none, w)
  | k + 1, i =>
    match w.disk.parts i with
    | none => (some (.error "open: no such file"), w)
    | some content =>
      let buf := readOnce content
      match hashWrite w.dl buf with
      | none => (some (.panic "runtime error: invalid memory address or nil pointer dereference"), w)
      | some dl =>
        mergeLoop
          { dl := dl
            disk :=
              { parts := Function.update w.disk.parts i none
                output := some (w.disk.output.getD [] ++ buf) }
            stdout := w.stdout ++ ["merging files ...  " ++ toString i ++ "  DONE"] }
          k (i + 1)

/-- The method `mergeFiles` (lines 303-341): `none` is a nil error. -/
def mergeFiles (w : World) : Option Failure × World :=
  match
    mergeLoop
      { w with
        disk := { w.disk with output := some [] }
        stdout := w.stdout ++ ["merging files ..."] }
      w.dl.numThreads.toNat 0
  with
  | (none, w) => (none, { w with stdout := w.stdout ++ ["files saved at  " ++ w.dl.filePath] })
  | out => out

/-- One hexadecimal digit, lower case. -/
def hexDigit (d : Nat) : Char :=
  ['0', '1', '2', '3', '4', '5', '6', '7', '8', '9', 'a', 'b', 'c', 'd', 'e', 'f'].getD d '0'

/-- The function `hex.EncodeToString`. -/
def hexEncode (bs : List Byte) : String :=
  String.mk (bs.flatMap fun b => [hexDigit (b / 16 % 16), hexDigit (b % 16)])

/-- The verb `%x` of `fmt.Printf` applied to a string of ASCII characters. -/
def formatX (s : String) : String :=
  hexEncode (s.data.map Char.toNat)

/-- The text `checksumData` of `Update` (line 196): the hexadecimal digest of the bytes
written to the hash.  The digest function of `crypto/md5` is the parameter `md5`. -/
def checksumData (md5 : List Byte → List Byte) (dl : Downloader) : String :=
  hexEncode (md5 (dl.hash.getD []))

/-- The line that `Update` prints at line 197. -/
def checksumLine (md5 : List Byte → List Byte) (dl : Downloader) : String :=
  dl.checksum ++ " checksum of the downloaded file: " ++ formatX (checksumData md5 dl)

/-- The method `Update` (lines 182-199), entered when all fetchers are done. -/
def Update (md5 : List Byte → List Byte) (w : World) : Option Failure × World :=
  let w := { w with dl := { w.dl with done := true } }
  match mergeFiles w with
  | (some (.panic msg), w) => (some (.panic msg), w)
  | (some (.error e), w) =>
    (none, { w with stdout := w.stdout ++ ["Error while merging files: " ++ e] })
  | (none, w) =>
    if w.dl.checksum ≠ "" then
      match w.dl.hash with
      | none => (some (.panic "runtime error: invalid memory address or nil pointer dereference"), w)
      | some _ => (none, { w with stdout := w.stdout ++ [checksumLine md5 w.dl] })
    else (none, w)

/-! ## Progress totals (`printProgress`) -/

/-- The integers of one frame of `printProgress`: the two sums of the aggregate line
and the chunk records, whose `dealt` fields `calculateRealtimeSpeed` updates. -/
structure Frame where
  totalBytesRead : Int
  totalTotalBytes : Int
  infos : List downloadInfo
deriving DecidableEq, Repr

/-- The integer part of the per-chunk loop of `printProgress` (lines 363-390): `k`
passes remain, the next index is `i`; `none` is an index out of range.  The test of
lines 376-380, computed in `float64` from the chunk's `bytesRead` and `totalBytes`, is
the parameter `barBreaks`. -/
def frameLoop (barBreaks : Int → Int → Bool) (f : Frame) : Nat → Nat → Option Frame
  | 0, _ => some f
  | k + 1, i =>
    match f.infos[i]? with
    | none => none
    | some info =>
      let bytesRead := info.bytesRead
      let totalBytes := wrap64 (info.endOffset - info.startOffset)
      let f : Frame :=
        { totalBytesRead := wrap64 (f.totalBytesRead + bytesRead)
          totalTotalBytes := wrap64 (f.totalTotalBytes + totalBytes)
          infos := f.infos.set i { info with dealt := bytesRead } }
      if barBreaks bytesRead totalBytes then some f else frameLoop barBreaks f k (i + 1)

/-- The sums that one frame of `printProgress` accumulates (lines 359-390). -/
def frameTotals (barBreaks : Int → Int → Bool) (dl : Downloader) : Option Frame :=
  frameLoop barBreaks
    { totalBytesRead := 0, totalTotalBytes := 0, infos := dl.downloadInfos }
    dl.numThreads.toNat 0

/-- The bytes `original[s .. e]` of an inclusive range of offsets; empty when `e < s`. -/
def byteRange (original : List Byte) (s e : Int) : List Byte :=
  (original.drop s.toNat).take (e - s + 1).toNat

/-- The buffers that `mergeFiles` reads from the part files `i, i + 1, ..., i + k - 1`,
in this order. -/
def partsConcat (parts : Nat → Option (List Byte)) (i k : Nat) : List Byte :=
  (List.range' i k).flatMap fun j => readOnce ((parts j).getD [])

/-- Invariant of a fetcher working on the range `[s, e]`: the range is unchanged,
`bytesRead` is non-negative and, once positive, at most the computed chunk size, every
recorded write lies in front of `bytesRead` and behind the earlier writes, and the
recorded values of `bytesRead` are non-decreasing and at most the current one. -/
def ChunkInv (s e : Int) (st : ChunkState) : Prop :=
  st.info.startOffset = s ∧ st.info.endOffset = e ∧
  0 ≤ st.info.bytesRead ∧
  (st.info.bytesRead = 0 ∨ st.info.bytesRead ≤ wrap64 (wrap64 (e - s) + 1)) ∧
  (∀ w ∈ st.writes, 0 ≤ w.1 ∧ 0 < (w.2.length : Int) ∧
    w.1 + (w.2.length : Int) ≤ st.info.bytesRead) ∧
  st.writes.Pairwise (fun a b => a.1 + (a.2.length : Int) ≤ b.1) ∧
  (∀ p ∈ st.progress, 0 ≤ p ∧ p ≤ st.info.bytesRead) ∧
  st.progress.Pairwise (fun p q => p ≤ q)

/-! ## Sample inputs -/

/-- A fresh chunk record for the range `[s, e]`. -/
def freshChunk (s e : Int) : downloadInfo :=
  { downloadInfo.zero with startOffset := s, endOffset := e }

/-- A job before `Start`, with the given number of threads. -/
def sampleJob (numThreads : Int) : Downloader :=
  { url := "http://example.com/a.bin", filePath := "/tmp/out", numThreads := numThreads,
    checksum := "", filename := "a.bin", fileSize := 0, downloadInfos := [],
    hash := none, done := false }

/-- A job of 4 threads for 1000 bytes in which every fetcher has run against a server
that delivers its 250 bytes and then the end of the stream. -/
def sampleDoneJob : Downloader :=
  { sampleJob 4 with
    fileSize := 1000
    downloadInfos := (planRanges 1000 4).map fun c =>
      (downloadChunk c
        [ConnResult.connected 0 [⟨List.replicate 250 0, ReadErr.none⟩, ⟨[], ReadErr.eof⟩]]).2.info }

/-- A digest function that has the value of MD5 on the empty input. -/
def md5OfEmpty (_ : List Byte) : List Byte :=
  [0xd4, 0x1d, 0x8c, 0xd9, 0x8f, 0x00, 0xb2, 0x04, 0xe9, 0x80, 0x09, 0x98, 0xec, 0xf8, 0x42, 0x7e]

/-- A job of one thread for an empty resource, after the fetcher is done: the part file
exists and is empty, and `expected` is the checksum captured from the server. -/
def sampleEmptyWorld (expected : String) : World :=
  { dl := { sampleJob 1 with checksum := expected, hash := some [], downloadInfos := planRanges 0 1 }
    disk := { parts := fun i => if i = 0 then some [] else none, output := none }
    stdout := [] }

/-- An original of `maxRW + 1` bytes: `maxRW` zero bytes and then the byte 1. -/
def sampleLargePart : List Byte :=
  List.replicate maxRW 0 ++ [1]

/-- A job of one thread for the resource `sampleLargePart`, after the fetcher is done:
the part file of index 0 holds the whole resource. -/
def sampleLargeWorld : World :=
  { dl := { sampleJob 1 with fileSize := 1073741825, downloadInfos := planRanges 1073741825 1 }
    disk := { parts := fun i => if i = 0 then some sampleLargePart else none, output := none }
    stdout := [] }

/-- A fetcher in the middle of the range `[0, 19]`: 10 bytes are written, 10 remain. -/
def sampleStreaming : ChunkState :=
  { info := { freshChunk 0 19 with bytesRead := 10 }
    file := [0, 1, 2, 3, 4, 5, 6, 7, 8, 9]
    writes := [(0, [0, 1, 2, 3, 4, 5, 6, 7, 8, 9])]
    requests := [(0, 19)]
    progress := [10]
    log := [] }

/-- A read that returns 15 bytes and a nil error. -/
def sampleRead15 : ReadResult :=
  ⟨[10, 11, 12, 13, 14, 15, 16, 17, 18, 19, 20, 21, 22, 23, 24], ReadErr.none⟩

/-- A script: one failed connection, then a response that delivers 3 bytes, then 12
bytes with the end of the stream. -/
def sampleScript : List ConnResult :=
  [ConnResult.failed,
   ConnResult.connected 5
     [⟨[1, 2, 3], ReadErr.none⟩, ⟨[4, 5, 6, 7, 8, 9, 10, 11, 12, 13, 14, 15], ReadErr.eof⟩]]

set_option maxRecDepth 100000

/-! ## Arithmetic helpers -/

theorem wrap64_of_range {x : Int} (h1 : -9223372036854775808 ≤ x)
    (h2 : x < 9223372036854775808) : wrap64 x = x := by
  unfold wrap64
  omega

theorem chunkSize_facts {fileSize numThreads : Int} (h0 : 0 ≤ fileSize)
    (hn : 1 ≤ numThreads) :
    0 ≤ Int.tdiv fileSize numThreads ∧
    Int.tdiv fileSize numThreads * numThreads ≤ fileSize ∧
    fileSize < (Int.tdiv fileSize numThreads + 1) * numThreads ∧
    Int.tdiv fileSize numThreads ≤ fileSize := by
  have hpos : 0 < numThreads := by omega
  have e : Int.tdiv fileSize numThreads = fileSize / numThreads :=
    Int.tdiv_eq_ediv h0 (by omega)
  rw [e]
  have a1 : 0 ≤ fileSize / numThreads := Int.ediv_nonneg h0 (by omega)
  have a2 : fileSize / numThreads * numThreads ≤ fileSize := Int.ediv_mul_le _ (by omega)
  have a3 : fileSize < (fileSize / numThreads + 1) * numThreads :=
    Int.lt_ediv_add_one_mul_self _ hpos
  refine ⟨a1, a2, a3, ?_⟩
  nlinarith

/-- Within a plan the product `i * chunkSize` stays below the file size. -/
theorem index_mul_chunkSize_le {fileSize numThreads : Int} (h0 : 0 ≤ fileSize)
    (hn : 1 ≤ numThreads) {i : Nat} (hi : (i : Int) + 1 ≤ numThreads) :
    0 ≤ (i : Int) * Int.tdiv fileSize numThreads ∧
    (i : Int) * Int.tdiv fileSize numThreads + Int.tdiv fileSize numThreads ≤ fileSize := by
  obtain ⟨c0, c1, -, -⟩ := chunkSize_facts h0 hn
  have hi0 : (0 : Int) ≤ i := Int.ofNat_nonneg i
  refine ⟨mul_nonneg hi0 c0, ?_⟩
  have h : ((i : Int) + 1) * Int.tdiv fileSize numThreads
      ≤ numThreads * Int.tdiv fileSize numThreads :=
    mul_le_mul_of_nonneg_right hi c0
  nlinarith

/-- The start of a planned range, without the reductions. -/
theorem planChunk_startOffset {fileSize numThreads : Int} (h0 : 0 ≤ fileSize)
    (h63 : fileSize < 9223372036854775808) (hn : 1 ≤ numThreads) {i : Nat}
    (hi : (i : Int) + 1 ≤ numThreads) :
    (planChunk fileSize numThreads (wrap64 (Int.tdiv fileSize numThreads)) i).startOffset
      = (i : Int) * Int.tdiv fileSize numThreads := by
  obtain ⟨c0, -, -, c3⟩ := chunkSize_facts h0 hn
  obtain ⟨p0, p1⟩ := index_mul_chunkSize_le h0 hn hi
  have e : wrap64 (Int.tdiv fileSize numThreads) = Int.tdiv fileSize numThreads :=
    wrap64_of_range (by omega) (by omega)
  simp only [planChunk, e]
  exact wrap64_of_range (by omega) (by omega)

/-- The end of a planned range, without the reductions. -/
theorem planChunk_endOffset {fileSize numThreads : Int} (h0 : 0 ≤ fileSize)
    (h63 : fileSize < 9223372036854775808) (hn : 1 ≤ numThreads) {i : Nat}
    (hi : (i : Int) + 1 ≤ numThreads) :
    (planChunk fileSize numThreads (wrap64 (Int.tdiv fileSize numThreads)) i).endOffset
      = if (i : Int) = numThreads - 1 then fileSize - 1
        else (i : Int) * Int.tdiv fileSize numThreads + Int.tdiv fileSize numThreads - 1 := by
  obtain ⟨c0, -, -, c3⟩ := chunkSize_facts h0 hn
  obtain ⟨p0, p1⟩ := index_mul_chunkSize_le h0 hn hi
  have e : wrap64 (Int.tdiv fileSize numThreads) = Int.tdiv fileSize numThreads :=
    wrap64_of_range (by omega) (by omega)
  have e1 : wrap64 ((i : Int) * Int.tdiv fileSize numThreads)
      = (i : Int) * Int.tdiv fileSize numThreads :=
    wrap64_of_range (by omega) (by omega)
  have e2 : wrap64 (Int.tdiv fileSize numThreads - 1) = Int.tdiv fileSize numThreads - 1 :=
    wrap64_of_range (by omega) (by omega)
  have e3 : wrap64 ((i : Int) * Int.tdiv fileSize numThreads
      + (Int.tdiv fileSize numThreads - 1))
      = (i : Int) * Int.tdiv fileSize numThreads + Int.tdiv fileSize numThreads - 1 := by
    rw [wrap64_of_range (by omega) (by omega)]
    omega
  have e4 : wrap64 (fileSize - 1) = fileSize - 1 := wrap64_of_range (by omega) (by omega)
  simp only [planChunk, e, e1, e2, e3, e4]

/-- The entries of a plan, by index. -/
theorem planRanges_getElem? (fileSize numThreads : Int) (i : Nat) :
    (planRanges fileSize numThreads)[i]? =
      if i < numThreads.toNat then
        some (planChunk fileSize numThreads (wrap64 (Int.tdiv fileSize numThreads)) i)
      else none := by
  unfold planRanges
  by_cases h : i < numThreads.toNat
  · simp [h, List.getElem?_range]
  · simp [h]
    omega

theorem planRanges_length (fileSize numThreads : Int) :
    (planRanges fileSize numThreads).length = numThreads.toNat := by
  simp [planRanges]

/-- An entry of a plan: its index is below `numThreads`, and its two offsets. -/
theorem planRanges_entry {fileSize numThreads : Int} (h0 : 0 ≤ fileSize)
    (h63 : fileSize < 9223372036854775808) (hn : 1 ≤ numThreads) {i : Nat} {a : downloadInfo}
    (h : (planRanges fileSize numThreads)[i]? = some a) :
    (i : Int) + 1 ≤ numThreads ∧
    a.startOffset = (i : Int) * Int.tdiv fileSize numThreads ∧
    a.endOffset = (if (i : Int) = numThreads - 1 then fileSize - 1
      else (i : Int) * Int.tdiv fileSize numThreads + Int.tdiv fileSize numThreads - 1) ∧
    a.bytesRead = 0 := by
  rw [planRanges_getElem?] at h
  by_cases hi : i < numThreads.toNat
  · rw [if_pos hi] at h
    have hi' : (i : Int) + 1 ≤ numThreads := by omega
    have ha := Option.some.inj h
    subst ha
    exact ⟨hi', planChunk_startOffset h0 h63 hn hi', planChunk_endOffset h0 h63 hn hi', rfl⟩
  · rw [if_neg hi] at h
    exact absurd h (by simp)

/-- C1. For every `fileSize ≥ 0` (an `int64`) and every `numThreads ≥ 1`, the ranges
that `Start` computes are `numThreads` in number; range 0 starts at 0; the last range
ends at `fileSize - 1`; range `i + 1` starts at the end of range `i` plus 1; an earlier
range ends before a later one starts; and an offset lies in `[0, fileSize)` exactly
when it lies in one of the inclusive ranges. -/
theorem planRanges_partition (fileSize numThreads : Int) (h0 : 0 ≤ fileSize)
    (h63 : fileSize < 9223372036854775808) (hn : 1 ≤ numThreads) :
    (planRanges fileSize numThreads).length = numThreads.toNat ∧
    ((planRanges fileSize numThreads)[0]?).map downloadInfo.startOffset = some 0 ∧
    ((planRanges fileSize numThreads)[numThreads.toNat - 1]?).map downloadInfo.endOffset
      = some (fileSize - 1) ∧
    (∀ (i : Nat) (a b : downloadInfo), (planRanges fileSize numThreads)[i]? = some a →
      (planRanges fileSize numThreads)[i + 1]? = some b →
      b.startOffset = a.endOffset + 1) ∧
    (∀ (i j : Nat) (a b : downloadInfo), i < j →
      (planRanges fileSize numThreads)[i]? = some a →
      (planRanges fileSize numThreads)[j]? = some b →
      a.endOffset < b.startOffset) ∧
    (∀ x : Int, (0 ≤ x ∧ x < fileSize) ↔
      ∃ a ∈ planRanges fileSize numThreads, a.startOffset ≤ x ∧ x ≤ a.endOffset) := by
  obtain ⟨c0, c1, c2, c3⟩ := chunkSize_facts h0 hn
  refine ⟨planRanges_length _ _, ?_, ?_, ?_, ?_, ?_⟩
  · have h : (planRanges fileSize numThreads)[0]? =
        some (planChunk fileSize numThreads (wrap64 (Int.tdiv fileSize numThreads)) 0) := by
      rw [planRanges_getElem?, if_pos (by omega)]
    obtain ⟨-, hs, -, -⟩ := planRanges_entry h0 h63 hn h
    rw [h, Option.map_some', hs]
    simp
  · have h : (planRanges fileSize numThreads)[numThreads.toNat - 1]? =
        some (planChunk fileSize numThreads (wrap64 (Int.tdiv fileSize numThreads))
          (numThreads.toNat - 1)) := by
      rw [planRanges_getElem?, if_pos (by omega)]
    obtain ⟨-, -, he, -⟩ := planRanges_entry h0 h63 hn h
    rw [h, Option.map_some', he, if_pos (by omega)]
  · intro i a b ha hb
    obtain ⟨hi, has, hae, -⟩ := planRanges_entry h0 h63 hn ha
    obtain ⟨hj, hbs, -, -⟩ := planRanges_entry h0 h63 hn hb
    have hlast : ¬ ((i : Int) = numThreads - 1) := by push_cast at hj; omega
    rw [hbs, hae, if_neg hlast]
    push_cast
    ring
  · intro i j a b hij ha hb
    obtain ⟨hi, has, hae, -⟩ := planRanges_entry h0 h63 hn ha
    obtain ⟨hj, hbs, -, -⟩ := planRanges_entry h0 h63 hn hb
    have hlast : ¬ ((i : Int) = numThreads - 1) := by omega
    rw [hbs, hae, if_neg hlast]
    have hle : ((i : Int) + 1) * Int.tdiv fileSize numThreads
        ≤ (j : Int) * Int.tdiv fileSize numThreads :=
      mul_le_mul_of_nonneg_right (by omega) c0
    nlinarith
  · intro x
    constructor
    · rintro ⟨hx0, hx1⟩
      by_cases hlow : x < (numThreads - 1) * Int.tdiv fileSize numThreads
      · have hcs : 0 < Int.tdiv fileSize numThreads := by
          rcases lt_or_eq_of_le c0 with h | h
          · exact h
          · rw [← h] at hlow
            simp at hlow
            omega
        have q0 : 0 ≤ x / Int.tdiv fileSize numThreads := Int.ediv_nonneg hx0 c0
        have q1 : x / Int.tdiv fileSize numThreads * Int.tdiv fileSize numThreads ≤ x :=
          Int.ediv_mul_le _ (by omega)
        have q2 : x < (x / Int.tdiv fileSize numThreads + 1) * Int.tdiv fileSize numThreads :=
          Int.lt_ediv_add_one_mul_self _ hcs
        have q3 : x / Int.tdiv fileSize numThreads < numThreads - 1 := by
          by_contra hcon
          have hge : (numThreads - 1) * Int.tdiv fileSize numThreads
              ≤ x / Int.tdiv fileSize numThreads * Int.tdiv fileSize numThreads :=
            mul_le_mul_of_nonneg_right (by omega) c0
          omega
        have hk : ((x / Int.tdiv fileSize numThreads).toNat : Int)
            = x / Int.tdiv fileSize numThreads := Int.toNat_of_nonneg q0
        have hget : (planRanges fileSize numThreads)[(x / Int.tdiv fileSize numThreads).toNat]? =
            some (planChunk fileSize numThreads (wrap64 (Int.tdiv fileSize numThreads))
              (x / Int.tdiv fileSize numThreads).toNat) := by
          rw [planRanges_getElem?, if_pos (by omega)]
        obtain ⟨-, hs, he, -⟩ := planRanges_entry h0 h63 hn hget
        refine ⟨_, List.getElem?_mem hget, ?_, ?_⟩
        · rw [hs, hk]
          exact q1
        · rw [he, hk, if_neg (by omega)]
          nlinarith
      · have hget : (planRanges fileSize numThreads)[numThreads.toNat - 1]? =
            some (planChunk fileSize numThreads (wrap64 (Int.tdiv fileSize numThreads))
              (numThreads.toNat - 1)) := by
          rw [planRanges_getElem?, if_pos (by omega)]
        have hk : ((numThreads.toNat - 1 : Nat) : Int) = numThreads - 1 := by omega
        obtain ⟨-, hs, he, -⟩ := planRanges_entry h0 h63 hn hget
        refine ⟨_, List.getElem?_mem hget, ?_, ?_⟩
        · rw [hs, hk]
          omega
        · rw [he, if_pos hk]
          omega
    · rintro ⟨a, ha, hx0, hx1⟩
      obtain ⟨i, hi⟩ := List.getElem?_of_mem ha
      obtain ⟨hin, hs, he, -⟩ := planRanges_entry h0 h63 hn hi
      obtain ⟨p0, p1⟩ := index_mul_chunkSize_le h0 hn hin
      rw [hs] at hx0
      rw [he] at hx1
      split_ifs at hx1 <;> omega

/-! ## The merge loop -/

theorem partsConcat_succ (parts : Nat → Option (List Byte)) (i k : Nat) :
    partsConcat parts i (k + 1)
      = readOnce ((parts i).getD []) ++ partsConcat parts (i + 1) k := by
  simp [partsConcat, List.range'_succ]

theorem partsConcat_congr {p q : Nat → Option (List Byte)} (i k : Nat)
    (h : ∀ j, i ≤ j → j < i + k → p j = q j) : partsConcat p i k = partsConcat q i k := by
  induction k generalizing i with
  | zero => simp [partsConcat]
  | succ k ih =>
    rw [partsConcat_succ, partsConcat_succ, h i (le_refl _) (by omega)]
    rw [ih (i + 1) (fun j h1 h2 => h j (by omega) (by omega))]

/-- Effect of `hashWrite` when the hash is set whenever a checksum is. -/
theorem hashWrite_spec (dl : Downloader) (buf : List Byte)
    (hhash : dl.checksum ≠ "" → ∃ written, dl.hash = some written) :
    ∃ dl1, hashWrite dl buf = some dl1 ∧ dl1.checksum = dl.checksum ∧
      dl1.filePath = dl.filePath ∧ dl1.numThreads = dl.numThreads ∧
      dl1.hash = (if dl.checksum ≠ "" then dl.hash.map (· ++ buf) else dl.hash) := by
  by_cases hc : dl.checksum = ""
  · exact ⟨dl, by simp [hashWrite, hc], rfl, rfl, rfl, by simp [hc]⟩
  · obtain ⟨written, hw⟩ := hhash hc
    exact ⟨{ dl with hash := some (written ++ buf) }, by simp [hashWrite, hc, hw], rfl, rfl,
      rfl, by simp [hc, hw]⟩

/-- When the part files `i .. i + k - 1` exist and the hash is set whenever a checksum
is, the merge loop ends without error, has appended the buffers read from the part
files in index order to the output and to the hash, and has removed the part files. -/
theorem mergeLoop_spec (k : Nat) : ∀ (i : Nat) (w : World),
    (∀ j, i ≤ j → j < i + k → ∃ buf, w.disk.parts j = some buf) →
    (w.dl.checksum ≠ "" → ∃ written, w.dl.hash = some written) →
    (mergeLoop w k i).1 = none ∧
    (mergeLoop w k i).2.disk.output
      = (if k = 0 then w.disk.output
          else some (w.disk.output.getD [] ++ partsConcat w.disk.parts i k)) ∧
    (mergeLoop w k i).2.dl.hash
      = (if w.dl.checksum ≠ "" then w.dl.hash.map (· ++ partsConcat w.disk.parts i k)
          else w.dl.hash) ∧
    (mergeLoop w k i).2.dl.checksum = w.dl.checksum ∧
    (mergeLoop w k i).2.dl.filePath = w.dl.filePath ∧
    (∀ j, (mergeLoop w k i).2.disk.parts j
      = if i ≤ j ∧ j < i + k then none else w.disk.parts j) := by
  induction k with
  | zero =>
    intro i w _ _
    refine ⟨rfl, rfl, ?_, rfl, rfl, ?_⟩
    · simp only [mergeLoop, partsConcat, List.range'_zero, List.flatMap_nil, List.append_nil]
      cases w.dl.hash <;> simp
    · intro j
      rw [if_neg (by omega)]
      rfl
  | succ k ih =>
    intro i w hparts hhash
    obtain ⟨buf, hbuf⟩ := hparts i (le_refl _) (by omega)
    have hpc : partsConcat (Function.update w.disk.parts i none) (i + 1) k
        = partsConcat w.disk.parts (i + 1) k :=
      partsConcat_congr _ _ (fun j h1 _ => Function.update_noteq (by omega) _ _)
    obtain ⟨dl1, hw, d1, d2, -, d4⟩ := hashWrite_spec w.dl (readOnce buf) hhash
    simp only [mergeLoop, hbuf, hw]
    obtain ⟨r1, r2, r3, r4, r5, r6⟩ := ih (i + 1)
      { dl := dl1
        disk := { parts := Function.update w.disk.parts i none
                  output := some (w.disk.output.getD [] ++ readOnce buf) }
        stdout := w.stdout ++ ["merging files ...  " ++ toString i ++ "  DONE"] }
      (fun j h1 h2 => by
        obtain ⟨b, hb⟩ := hparts j (by omega) (by omega)
        exact ⟨b, by simp only [Function.update_noteq (show j ≠ i by omega)]; exact hb⟩)
      (fun h => by
        simp only [d1] at h
        obtain ⟨written, hwr⟩ := hhash h
        exact ⟨written ++ readOnce buf, by simp [d4, h, hwr]⟩)
    refine ⟨r1, ?_, ?_, ?_, ?_, ?_⟩
    · rw [r2, partsConcat_succ, hbuf, hpc]
      by_cases hk : k = 0
      · subst hk
        simp [partsConcat]
      · simp [hk]
    · rw [r3]
      simp only [d1, d4, partsConcat_succ, hbuf, hpc]
      by_cases hc : w.dl.checksum = ""
      · simp [hc]
      · simp only [hc, ne_eq, not_false_eq_true, if_true]
        cases w.dl.hash <;> simp
    · rw [r4, d1]
    · rw [r5, d2]
    · intro j
      rw [r6 j]
      by_cases hj : j = i
      · subst hj
        simp
      · by_cases hin : i + 1 ≤ j ∧ j < i + 1 + k
        · rw [if_pos hin, if_pos (by omega)]
        · rw [if_neg hin, if_neg (by omega)]
          exact Function.update_noteq hj _ _

theorem partsConcat_snoc (parts : Nat → Option (List Byte)) (i k : Nat) :
    partsConcat parts i (k + 1)
      = partsConcat parts i k ++ readOnce ((parts (i + k)).getD []) := by
  simp [partsConcat, List.range'_concat]

/-- One `Read` call reads a file of at most `maxRW` bytes whole. -/
theorem readOnce_of_le {content : List Byte} (h : content.length ≤ maxRW) :
    readOnce content = content := by
  unfold readOnce
  rw [List.take_of_length_le h, Nat.sub_eq_zero_of_le h, List.replicate_zero,
    List.append_nil]

/-- One `Read` call on a file whose first `maxRW` bytes are `front` and whose other
bytes are `back` yields `front` followed by zero bytes. -/
theorem readOnce_append (front back : List Byte) (h : front.length = maxRW) :
    readOnce (front ++ back) = front ++ List.replicate back.length 0 := by
  unfold readOnce
  rw [List.take_left' h, List.length_append, h, Nat.add_sub_cancel_left]

/-- A slice of a file of at most `maxRW` bytes is read whole. -/
theorem readOnce_slice (original : List Byte) (a b : Nat) (h : original.length ≤ maxRW) :
    readOnce ((original.drop a).take b) = (original.drop a).take b := by
  apply readOnce_of_le
  rw [List.length_take, List.length_drop]
  omega

/-- The part files of the first `m` planned ranges, none of them the last, make up the
first `m * chunkSize` bytes of the original, when the original has at most `maxRW`
bytes. -/
theorem partsConcat_prefix (original : List Byte) (numThreads : Int)
    (parts : Nat → Option (List Byte))
    (hsmall : original.length ≤ maxRW)
    (h63 : (original.length : Int) < 9223372036854775808) (hn : 1 ≤ numThreads)
    (hparts : ∀ (i : Nat) (a : downloadInfo),
      (planRanges original.length numThreads)[i]? = some a →
      parts i = some (byteRange original a.startOffset a.endOffset))
    (m : Nat) (hm : (m : Int) + 1 ≤ numThreads) :
    partsConcat parts 0 m
      = original.take (m * (Int.tdiv original.length numThreads).toNat) := by
  have h0 : (0 : Int) ≤ original.length := Int.ofNat_nonneg _
  obtain ⟨c0, -, -, -⟩ := chunkSize_facts h0 hn
  induction m with
  | zero => simp [partsConcat]
  | succ m ih =>
    have hm' : (m : Int) + 1 ≤ numThreads := by push_cast at hm; omega
    have hget : (planRanges original.length numThreads)[m]? =
        some (planChunk original.length numThreads
          (wrap64 (Int.tdiv original.length numThreads)) m) := by
      rw [planRanges_getElem?, if_pos (by omega)]
    obtain ⟨-, hs, he, -⟩ := planRanges_entry h0 h63 hn hget
    rw [partsConcat_snoc, ih hm', Nat.zero_add, hparts m _ hget, Option.getD_some, hs, he,
      if_neg (by push_cast at hm; omega)]
    have e1 : ((m : Int) * Int.tdiv original.length numThreads).toNat
        = m * (Int.tdiv original.length numThreads).toNat := by
      have hc : ((Int.tdiv original.length numThreads).toNat : Int)
          = Int.tdiv original.length numThreads := Int.toNat_of_nonneg c0
      have : ((m * (Int.tdiv original.length numThreads).toNat : Nat) : Int)
          = (m : Int) * Int.tdiv original.length numThreads := by
        push_cast
        rw [hc]
      omega
    have e2 : ((m : Int) * Int.tdiv original.length numThreads
        + Int.tdiv original.length numThreads - 1
        - (m : Int) * Int.tdiv original.length numThreads + 1).toNat
        = (Int.tdiv original.length numThreads).toNat := by
      congr 1
      ring
    unfold byteRange
    rw [e1, e2, readOnce_slice original _ _ hsmall, Nat.succ_mul, List.take_add]

/-- The part files of all planned ranges, in index order, make up the original, when
the original has at most `maxRW` bytes. -/
theorem partsConcat_plan (original : List Byte) (numThreads : Int)
    (parts : Nat → Option (List Byte))
    (hsmall : original.length ≤ maxRW)
    (h63 : (original.length : Int) < 9223372036854775808) (hn : 1 ≤ numThreads)
    (hparts : ∀ (i : Nat) (a : downloadInfo),
      (planRanges original.length numThreads)[i]? = some a →
      parts i = some (byteRange original a.startOffset a.endOffset)) :
    partsConcat parts 0 numThreads.toNat = original := by
  have h0 : (0 : Int) ≤ original.length := Int.ofNat_nonneg _
  obtain ⟨c0, -, -, -⟩ := chunkSize_facts h0 hn
  obtain ⟨n, hn1⟩ : ∃ n, numThreads.toNat = n + 1 := ⟨numThreads.toNat - 1, by omega⟩
  have hcast : (n : Int) + 1 = numThreads := by omega
  have hget : (planRanges original.length numThreads)[n]? =
      some (planChunk original.length numThreads
        (wrap64 (Int.tdiv original.length numThreads)) n) := by
    rw [planRanges_getElem?, if_pos (by omega)]
  obtain ⟨-, hs, he, -⟩ := planRanges_entry h0 h63 hn hget
  obtain ⟨p0, p1⟩ := index_mul_chunkSize_le h0 hn (le_of_eq hcast)
  rw [hn1, partsConcat_snoc, partsConcat_prefix original numThreads parts hsmall h63 hn hparts n
    (le_of_eq hcast), Nat.zero_add, hparts n _ hget, Option.getD_some, hs, he,
    if_pos (by omega)]
  have e1 : ((n : Int) * Int.tdiv original.length numThreads).toNat
      = n * (Int.tdiv original.length numThreads).toNat := by
    have hc : ((Int.tdiv original.length numThreads).toNat : Int)
        = Int.tdiv original.length numThreads := Int.toNat_of_nonneg c0
    have : ((n * (Int.tdiv original.length numThreads).toNat : Nat) : Int)
        = (n : Int) * Int.tdiv original.length numThreads := by
      push_cast
      rw [hc]
    omega
  unfold byteRange
  rw [e1, readOnce_slice original _ _ hsmall]
  have hlen : (List.drop (n * (Int.tdiv original.length numThreads).toNat) original).length
      ≤ ((original.length : Int) - 1
        - (n : Int) * Int.tdiv original.length numThreads + 1).toNat := by
    rw [List.length_drop]
    omega
  rw [List.take_of_length_le hlen, List.take_append_drop]

/-- What `mergeFiles` does when the part files `0 .. numThreads - 1` exist and the hash
is set whenever a checksum is: it returns a nil error, the output file holds the part
files in index order, the hash has received the same bytes, and two lines frame the
lines of the loop. -/
theorem mergeFiles_spec (w : World) (hn : 1 ≤ w.dl.numThreads)
    (hparts : ∀ j, j < w.dl.numThreads.toNat → ∃ buf, w.disk.parts j = some buf)
    (hhash : w.dl.checksum ≠ "" → ∃ written, w.dl.hash = some written) :
    (mergeFiles w).1 = none ∧
    (mergeFiles w).2.disk.output = some (partsConcat w.disk.parts 0 w.dl.numThreads.toNat) ∧
    (mergeFiles w).2.dl.hash
      = (if w.dl.checksum ≠ ""
          then w.dl.hash.map (· ++ partsConcat w.disk.parts 0 w.dl.numThreads.toNat)
          else w.dl.hash) ∧
    (mergeFiles w).2.dl.checksum = w.dl.checksum := by
  obtain ⟨r1, r2, r3, r4, -, -⟩ := mergeLoop_spec w.dl.numThreads.toNat 0
    { w with
      disk := { w.disk with output := some [] }
      stdout := w.stdout ++ ["merging files ..."] }
    (fun j _ h2 => hparts j (by omega)) hhash
  have hk : ¬ (w.dl.numThreads.toNat = 0) := by omega
  rw [if_neg hk] at r2
  unfold mergeFiles
  generalize hm : mergeLoop
    { w with
      disk := { w.disk with output := some [] }
      stdout := w.stdout ++ ["merging files ..."] } w.dl.numThreads.toNat 0 = out at r1 r2 r3 r4
  obtain ⟨e, w1⟩ := out
  simp only at r1 r2 r3 r4
  subst r1
  simp only [r2, r3, r4]
  simp

/-! ## The streaming loop -/

theorem streamTail_info (st : ChunkState) (err : ReadErr) :
    (streamTail st err).2.info = st.info ∧ (streamTail st err).2.file = st.file ∧
    (streamTail st err).2.writes = st.writes ∧
    (streamTail st err).2.requests = st.requests ∧
    (streamTail st err).2.progress = st.progress ++ [st.info.bytesRead] := by
  unfold streamTail
  simp only
  split_ifs <;> simp

theorem streamTail_inv {s e : Int} {st : ChunkState} (err : ReadErr)
    (h : ChunkInv s e st) : ChunkInv s e (streamTail st err).2 := by
  obtain ⟨h1, h2, h3, h4, h5, h6, h7, h8⟩ := h
  obtain ⟨e1, -, e3, -, e5⟩ := streamTail_info st err
  refine ⟨?_, ?_, ?_, ?_, ?_, ?_, ?_, ?_⟩
  · rw [e1]; exact h1
  · rw [e1]; exact h2
  · rw [e1]; exact h3
  · rw [e1]; exact h4
  · rw [e1, e3]; exact h5
  · rw [e3]; exact h6
  · rw [e1, e5]
    intro p hp
    rcases List.mem_append.mp hp with hp | hp
    · exact h7 p hp
    · rw [List.mem_singleton] at hp
      subst hp
      exact ⟨h3, le_refl _⟩
  · rw [e5, List.pairwise_append]
    refine ⟨h8, List.pairwise_singleton _ _, ?_⟩
    intro p hp q hq
    rw [List.mem_singleton] at hq
    subst hq
    exact (h7 p hp).2

/-- Printing the warning changes nothing the invariant speaks of. -/
theorem ChunkInv_log {s e : Int} {st : ChunkState} (msgs : List String)
    (h : ChunkInv s e st) : ChunkInv s e { st with log := msgs } := h

/-- The positional write succeeds in a state that satisfies the invariant, and keeps
it, when the byte count is at most the bytes remaining and at most the bytes read. -/
theorem writeChunk_inv {s e : Int} {st : ChunkState} (data : List Byte) (n : Int)
    (h : ChunkInv s e st) (hn : n ≤ updateLeft st.info) (hd : n ≤ (data.length : Int)) :
    ∃ st2, writeChunk st data (updateLeft st.info) n = some st2 ∧ ChunkInv s e st2 ∧
      st.info.bytesRead ≤ st2.info.bytesRead := by
  obtain ⟨h1, h2, h3, h4, h5, h6, h7, h8⟩ := h
  unfold writeChunk
  by_cases hw : updateLeft st.info > 0 ∧ n > 0
  · rw [if_pos hw]
    have hoff : ¬ (st.info.bytesRead < 0) := by omega
    simp only [writeAt, if_neg hoff]
    refine ⟨_, rfl, ?_, ?_⟩
    · have hlen : ((List.take n.toNat data).length : Int) = n := by
        rw [List.length_take]
        omega
      have hb : wrap64 (st.info.bytesRead + n) = st.info.bytesRead + n ∧
          st.info.bytesRead + n ≤ wrap64 (wrap64 (e - s) + 1) := by
        have hl := hw.1
        have hl2 := hn
        unfold updateLeft at hl hl2
        rw [h1, h2] at hl hl2
        unfold wrap64 at hl hl2 h4 ⊢
        omega
      refine ⟨h1, h2, ?_, ?_, ?_, ?_, ?_, h8⟩
      · simp only [hb.1]
        omega
      · right
        simp only [hb.1]
        exact hb.2
      · simp only [hb.1]
        intro w hwm
        rcases List.mem_append.mp hwm with hwm | hwm
        · obtain ⟨a1, a2, a3⟩ := h5 w hwm
          exact ⟨a1, a2, by omega⟩
        · rw [List.mem_singleton] at hwm
          subst hwm
          simp only [hlen]
          exact ⟨h3, hw.2, le_refl _⟩
      · simp only [List.pairwise_append]
        refine ⟨h6, List.pairwise_singleton _ _, ?_⟩
        intro a ha b hb'
        rw [List.mem_singleton] at hb'
        subst hb'
        exact (h5 a ha).2.2
      · simp only [hb.1]
        intro p hp
        obtain ⟨a1, a2⟩ := h7 p hp
        exact ⟨a1, by omega⟩
    · have hl := hw.1
      have hl2 := hn
      unfold updateLeft at hl hl2
      rw [h1, h2] at hl hl2
      show st.info.bytesRead ≤ wrap64 (st.info.bytesRead + n)
      unfold wrap64 at hl hl2 h4 ⊢
      omega
  · rw [if_neg hw]
    exact ⟨st, rfl, ⟨h1, h2, h3, h4, h5, h6, h7, h8⟩, le_refl _⟩

/-- The part of a pass after a read without a non-EOF error keeps the invariant and
does not lower `bytesRead`. -/
theorem streamData_inv {s e : Int} {st : ChunkState} (data : List Byte) (err : ReadErr)
    (h : ChunkInv s e st) :
    ChunkInv s e (streamData st data err).2 ∧
      st.info.bytesRead ≤ (streamData st data err).2.info.bytesRead := by
  unfold streamData
  simp only
  by_cases hover : (data.length : Int) > updateLeft st.info
  · simp only [if_pos hover]
    obtain ⟨st2, hw, hinv, hmono⟩ := writeChunk_inv data (updateLeft st.info)
      (ChunkInv_log (st.log ++ ["remote server doesn't implement the protocol properly"]) h)
      (le_refl _) (le_of_lt hover)
    have hw2 : writeChunk
        { st with log := st.log ++ ["remote server doesn't implement the protocol properly"] }
        data (updateLeft st.info) (updateLeft st.info) = some st2 := hw
    rw [hw2]
    exact ⟨streamTail_inv err hinv, by rw [(streamTail_info st2 err).1]; exact hmono⟩
  · simp only [if_neg hover]
    obtain ⟨st2, hw, hinv, hmono⟩ := writeChunk_inv data (data.length : Int) h
      (by omega) (le_refl _)
    rw [hw]
    exact ⟨streamTail_inv err hinv, by rw [(streamTail_info st2 err).1]; exact hmono⟩

/-- A pass whose read returned no non-EOF error is the part after the read. -/
theorem streamStep_eq_streamData (st : ChunkState) (r : ReadResult)
    (herr : ∀ msg, r.err ≠ ReadErr.other msg) :
    streamStep st r = streamData st r.data r.err := by
  unfold streamStep
  cases hr : r.err with
  | other msg => exact absurd hr (herr msg)
  | none => rfl
  | eof => rfl

/-- One pass of the streaming loop keeps the invariant and does not lower
`bytesRead`. -/
theorem streamStep_inv {s e : Int} {st : ChunkState} (r : ReadResult)
    (h : ChunkInv s e st) :
    ChunkInv s e (streamStep st r).2 ∧
      st.info.bytesRead ≤ (streamStep st r).2.info.bytesRead := by
  unfold streamStep
  cases hr : r.err with
  | other msg => exact ⟨ChunkInv_log _ h, le_refl _⟩
  | none => exact streamData_inv r.data ReadErr.none h
  | eof => exact streamData_inv r.data ReadErr.eof h

/-- The streaming loop keeps the invariant. -/
theorem streamLoop_inv {s e : Int} (body : List ReadResult) :
    ∀ st : ChunkState, ChunkInv s e st → ChunkInv s e (streamLoop st body).2 := by
  induction body with
  | nil => intro st h; exact h
  | cons r rest ih =>
    intro st h
    have hstep := (streamStep_inv r h).1
    unfold streamLoop
    generalize streamStep st r = out at hstep
    obtain ⟨c, st1⟩ := out
    cases c with
    | next => exact ih st1 hstep
    | exit => exact hstep
    | panic msg => exact hstep

theorem streamFrom_state (st : ChunkState) (body : List ReadResult) :
    (streamFrom st body).2 = (streamLoop st body).2 := by
  unfold streamFrom
  generalize streamLoop st body = out
  obtain ⟨c, st1⟩ := out
  cases c with
  | next => rfl
  | exit => simp only; split_ifs <;> rfl
  | panic msg => rfl

/-- The outer loop keeps the invariant. -/
theorem connectLoop_inv {s e : Int} (script : List ConnResult) :
    ∀ st : ChunkState, ChunkInv s e st → ChunkInv s e (connectLoop st script).2 := by
  induction script with
  | nil => intro st h; exact h
  | cons c rest ih =>
    intro st h
    cases c with
    | failed => exact ih _ h
    | connected now body =>
      unfold connectLoop
      rw [streamFrom_state]
      exact streamLoop_inv body _ h

/-- A pass that does not ask for another pass ends the streaming loop. -/
theorem streamLoop_cons_of_ne_next (st : ChunkState) (r : ReadResult) (rest : List ReadResult)
    (h : (streamStep st r).1 ≠ Control.next) :
    streamLoop st (r :: rest) = streamStep st r := by
  unfold streamLoop
  generalize streamStep st r = out at h
  obtain ⟨c, st1⟩ := out
  cases c with
  | next => exact absurd rfl h
  | exit => rfl
  | panic msg => rfl

/-- In a state that satisfies the invariant with bytes remaining, `bytesRead` plus the
bytes remaining is the computed chunk size, an `int64` value. -/
theorem ChunkInv_fits {s e : Int} {st : ChunkState} (h : ChunkInv s e st)
    (hleft : 0 < updateLeft st.info) :
    0 ≤ st.info.bytesRead ∧
      st.info.bytesRead + updateLeft st.info < 9223372036854775808 := by
  obtain ⟨h1, h2, h3, h4, -, -, -, -⟩ := h
  unfold updateLeft at hleft ⊢
  rw [h1, h2] at hleft ⊢
  unfold wrap64 at hleft h4 ⊢
  omega

/-- A fresh fetcher state satisfies the invariant. -/
theorem ChunkInv_init (info : downloadInfo) (hfresh : info.bytesRead = 0) :
    ChunkInv info.startOffset info.endOffset
      { info := info, file := [], writes := [], requests := [], progress := [], log := [] } := by
  refine ⟨rfl, rfl, ?_, Or.inl hfresh, ?_, List.Pairwise.nil, ?_, List.Pairwise.nil⟩
  · show 0 ≤ info.bytesRead
    omega
  · intro w hw
    exact absurd hw (List.not_mem_nil _)
  · intro p hp
    exact absurd hp (List.not_mem_nil _)

/-- Every state that a fetcher reaches from a fresh record, while bytes remain, has a
non-negative `bytesRead` whose sum with the bytes remaining is an `int64` value. -/
theorem downloadChunk_state_fits (info : downloadInfo) (hfresh : info.bytesRead = 0)
    (script : List ConnResult)
    (hleft : 0 < updateLeft (downloadChunk info script).2.info) :
    0 ≤ (downloadChunk info script).2.info.bytesRead ∧
      (downloadChunk info script).2.info.bytesRead
        + updateLeft (downloadChunk info script).2.info < 9223372036854775808 :=
  ChunkInv_fits (connectLoop_inv script _ (ChunkInv_init info hfresh)) hleft

/-- C3. Loop invariant of `downloadChunk`: for a chunk with `endOffset ≥ startOffset - 1`
whose record is fresh and for every script of the network, every write made so far
starts at a non-negative offset, is non-empty and ends at or before offset
`endOffset - startOffset`; each write begins where an earlier one has ended or later, so
the written regions are pairwise disjoint; the values of `bytesRead` after the passes
are non-decreasing and lie in `[0, endOffset - startOffset + 1]`, as does the current
one; and one more pass, on any read result, does not lower `bytesRead`. -/
theorem downloadChunk_loop_invariant (info : downloadInfo)
    (hrange : info.startOffset - 1 ≤ info.endOffset) (hfresh : info.bytesRead = 0)
    (script : List ConnResult) :
    (∀ w ∈ (downloadChunk info script).2.writes,
      0 ≤ w.1 ∧ 0 < (w.2.length : Int) ∧
      w.1 + (w.2.length : Int) - 1 ≤ info.endOffset - info.startOffset) ∧
    (downloadChunk info script).2.writes.Pairwise
      (fun a b => a.1 + (a.2.length : Int) ≤ b.1) ∧
    (downloadChunk info script).2.progress.Pairwise (fun p q => p ≤ q) ∧
    (∀ p ∈ (downloadChunk info script).2.progress,
      0 ≤ p ∧ p ≤ info.endOffset - info.startOffset + 1) ∧
    0 ≤ (downloadChunk info script).2.info.bytesRead ∧
    (downloadChunk info script).2.info.bytesRead ≤ info.endOffset - info.startOffset + 1 ∧
    (∀ r : ReadResult, (downloadChunk info script).2.info.bytesRead
      ≤ (streamStep (downloadChunk info script).2 r).2.info.bytesRead) := by
  have hinv : ChunkInv info.startOffset info.endOffset (downloadChunk info script).2 :=
    connectLoop_inv script _ (ChunkInv_init info hfresh)
  have hmono := fun r => (streamStep_inv r hinv).2
  obtain ⟨-, -, h3, h4, h5, h6, h7, h8⟩ := hinv
  have hb : (downloadChunk info script).2.info.bytesRead
      ≤ info.endOffset - info.startOffset + 1 := by
    unfold wrap64 at h4
    omega
  refine ⟨?_, h6, h8, ?_, h3, hb, hmono⟩
  · intro w hw
    obtain ⟨a1, a2, a3⟩ := h5 w hw
    exact ⟨a1, a2, by omega⟩
  · intro p hp
    obtain ⟨a1, a2⟩ := h7 p hp
    exact ⟨a1, by omega⟩

theorem streamTail_exit_of_zero (st : ChunkState) (err : ReadErr)
    (h : updateLeft st.info = 0) : (streamTail st err).1 = Control.exit := by
  have h' : updateLeft { st with progress := st.progress ++ [st.info.bytesRead] }.info = 0 := h
  unfold streamTail
  simp only [h']
  split_ifs <;> first | rfl | omega

theorem streamTail_panic_of_eof_pos (st : ChunkState) (h : 0 < updateLeft st.info) :
    (streamTail st ReadErr.eof).1 = Control.panic "data is not enough" := by
  have h' : 0 < updateLeft { st with progress := st.progress ++ [st.info.bytesRead] }.info := h
  unfold streamTail
  simp only [if_pos h', if_true]

/-- When a pass ends the streaming loop, `downloadChunk` returns if the chunk is complete
and panics if it is not, in the state that the pass has left. -/
theorem streamFrom_of_exit (st : ChunkState) (r : ReadResult) (rest : List ReadResult)
    (hc : (streamStep st r).1 = Control.exit) :
    (streamFrom st (r :: rest)).1
      = (if isComplete (streamStep st r).2.info then Exit.returned
          else Exit.panicked "receive data from server is not enough") ∧
    (streamFrom st (r :: rest)).2 = (streamStep st r).2 := by
  have hl := streamLoop_cons_of_ne_next st r rest (by rw [hc]; exact fun h => nomatch h)
  unfold streamFrom
  rw [hl]
  generalize streamStep st r = out at hc
  obtain ⟨c, st1⟩ := out
  simp only at hc
  subst hc
  simp only
  split_ifs <;> exact ⟨rfl, rfl⟩

theorem streamFrom_of_panic (st : ChunkState) (r : ReadResult) (rest : List ReadResult)
    (msg : String) (hc : (streamStep st r).1 = Control.panic msg) :
    (streamFrom st (r :: rest)).1 = Exit.panicked msg := by
  have hl := streamLoop_cons_of_ne_next st r rest (by rw [hc]; exact fun h => nomatch h)
  unfold streamFrom
  rw [hl]
  generalize streamStep st r = out at hc
  obtain ⟨c, st1⟩ := out
  simp only at hc
  subst hc
  rfl

/-- C4. Over-delivery truncation: in a pass of the streaming loop that starts with
`left > 0` bytes remaining (in a state where `bytesRead` is non-negative and the end of
the chunk is an `int64` offset) and whose read returns `n > left` bytes without a
non-EOF error, the one write made is of the first `left` bytes of the buffer at offset
`bytesRead`, the part file is the result of that write, `bytesRead` advances by exactly
`left`, the pass ends the loop without a panic, and `downloadChunk` returns. -/
theorem streamStep_truncates_over_delivery (st : ChunkState) (r : ReadResult)
    (rest : List ReadResult)
    (hb : 0 ≤ st.info.bytesRead)
    (hfit : st.info.bytesRead + updateLeft st.info < 9223372036854775808)
    (hleft : 0 < updateLeft st.info)
    (hover : updateLeft st.info < (r.data.length : Int))
    (herr : ∀ msg, r.err ≠ ReadErr.other msg) :
    (streamStep st r).2.writes
      = st.writes ++ [(st.info.bytesRead, r.data.take (updateLeft st.info).toNat)] ∧
    ((r.data.take (updateLeft st.info).toNat).length : Int) = updateLeft st.info ∧
    some (streamStep st r).2.file
      = writeAt st.file (r.data.take (updateLeft st.info).toNat) st.info.bytesRead ∧
    (streamStep st r).2.info.bytesRead = st.info.bytesRead + updateLeft st.info ∧
    (streamStep st r).1 = Control.exit ∧
    (streamFrom st (r :: rest)).1 = Exit.returned := by
  have hlen : ((r.data.take (updateLeft st.info).toNat).length : Int) = updateLeft st.info := by
    rw [List.length_take]
    omega
  have hoff : ¬ (st.info.bytesRead < 0) := by omega
  have hw : wrap64 (st.info.bytesRead + updateLeft st.info)
      = st.info.bytesRead + updateLeft st.info := wrap64_of_range (by omega) hfit
  have hgt : (r.data.length : Int) > updateLeft st.info := hover
  have hzero : ∀ st2 : ChunkState, st2.info.startOffset = st.info.startOffset →
      st2.info.endOffset = st.info.endOffset →
      st2.info.bytesRead = st.info.bytesRead + updateLeft st.info →
      updateLeft st2.info = 0 := by
    intro st2 e1 e2 e3
    have hl := hleft
    have hf := hfit
    unfold updateLeft at hl hf ⊢
    rw [e1, e2, e3]
    unfold updateLeft
    unfold wrap64 at hl hf ⊢
    omega
  have hk : streamStep st r = streamTail
      { st with
        log := st.log ++ ["remote server doesn't implement the protocol properly"]
        file := st.file.take st.info.bytesRead.toNat
          ++ List.replicate (st.info.bytesRead.toNat - st.file.length) 0
          ++ r.data.take (updateLeft st.info).toNat
          ++ st.file.drop (st.info.bytesRead.toNat
            + (r.data.take (updateLeft st.info).toNat).length)
        writes := st.writes ++ [(st.info.bytesRead, r.data.take (updateLeft st.info).toNat)]
        info := { st.info with bytesRead := st.info.bytesRead + updateLeft st.info } }
      r.err := by
    rw [streamStep_eq_streamData st r herr]
    unfold streamData
    simp only [if_pos hgt, writeChunk, hleft, and_self, if_true, writeAt, if_neg hoff, hw]
  have hexit : (streamStep st r).1 = Control.exit := by
    rw [hk]
    exact streamTail_exit_of_zero _ _ (hzero _ rfl rfl rfl)
  have hinfo := streamTail_info
    { st with
      log := st.log ++ ["remote server doesn't implement the protocol properly"]
      file := st.file.take st.info.bytesRead.toNat
        ++ List.replicate (st.info.bytesRead.toNat - st.file.length) 0
        ++ r.data.take (updateLeft st.info).toNat
        ++ st.file.drop (st.info.bytesRead.toNat
          + (r.data.take (updateLeft st.info).toNat).length)
      writes := st.writes ++ [(st.info.bytesRead, r.data.take (updateLeft st.info).toNat)]
      info := { st.info with bytesRead := st.info.bytesRead + updateLeft st.info } }
    r.err
  obtain ⟨i1, i2, i3, -, -⟩ := hinfo
  refine ⟨?_, hlen, ?_, ?_, hexit, ?_⟩
  · rw [hk, i3]
  · rw [hk, i2]
    simp only [writeAt, if_neg hoff]
  · rw [hk, i1]
  · rw [(streamFrom_of_exit st r rest hexit).1, hk, i1]
    have : isComplete { st.info with bytesRead := st.info.bytesRead + updateLeft st.info }
        = true := by
      unfold isComplete
      have := hzero
        { st with info := { st.info with bytesRead := st.info.bytesRead + updateLeft st.info } }
        rfl rfl rfl
      simp only at this
      rw [this]
      rfl
    rw [this]
    rfl

/-- When `downloadChunk` returns in the streaming phase, no bytes remain. -/
theorem streamFrom_returned (st : ChunkState) (body : List ReadResult)
    (h : (streamFrom st body).1 = Exit.returned) :
    updateLeft (streamFrom st body).2.info = 0 := by
  unfold streamFrom at h ⊢
  generalize streamLoop st body = out at h ⊢
  obtain ⟨c, st1⟩ := out
  cases c with
  | next => exact absurd h (fun h => nomatch h)
  | panic msg => exact absurd h (fun h => nomatch h)
  | exit =>
    simp only at h ⊢
    by_cases hc : isComplete st1.info = true
    · rw [if_pos hc]
      unfold isComplete at hc
      exact of_decide_eq_true (by simpa using hc)
    · rw [if_neg hc] at h
      exact absurd h (fun h => nomatch h)

theorem connectLoop_returned (script : List ConnResult) : ∀ st : ChunkState,
    (connectLoop st script).1 = Exit.returned →
    updateLeft (connectLoop st script).2.info = 0 := by
  induction script with
  | nil => intro st h; exact absurd h (fun h => nomatch h)
  | cons c rest ih =>
    intro st h
    cases c with
    | failed => exact ih _ h
    | connected now body => exact streamFrom_returned _ body h

/-- C5. Under-delivery detection: when the read of a pass returns `io.EOF` and bytes
remain after the pass has written, the pass panics and so does `downloadChunk`, which
then does not return; and whenever `downloadChunk` returns, the bytes remaining are
exactly 0. -/
theorem downloadChunk_under_delivery :
    (∀ (st : ChunkState) (r : ReadResult) (rest : List ReadResult),
      r.err = ReadErr.eof → 0 < updateLeft (streamStep st r).2.info →
      ∃ msg, (streamStep st r).1 = Control.panic msg ∧
        (streamFrom st (r :: rest)).1 = Exit.panicked msg ∧
        (streamFrom st (r :: rest)).1 ≠ Exit.returned) ∧
    (∀ (info : downloadInfo) (script : List ConnResult),
      (downloadChunk info script).1 = Exit.returned →
      updateLeft (downloadChunk info script).2.info = 0) := by
  constructor
  · intro st r rest he hleft
    have hp : ∃ msg, (streamStep st r).1 = Control.panic msg := by
      have hs : streamStep st r = streamData st r.data ReadErr.eof := by
        rw [streamStep_eq_streamData st r (by rw [he]; exact fun msg h => nomatch h), he]
      rw [hs] at hleft ⊢
      unfold streamData at hleft ⊢
      simp only at hleft ⊢
      generalize writeChunk
        (if (r.data.length : Int) > updateLeft st.info then
          { st with log := st.log ++
            ["remote server doesn't implement the protocol properly"] }
        else st) r.data (updateLeft st.info)
        (if (r.data.length : Int) > updateLeft st.info then updateLeft st.info
          else (r.data.length : Int)) = res at hleft ⊢
      cases res with
      | none => exact ⟨_, rfl⟩
      | some st2 =>
        simp only at hleft ⊢
        rw [(streamTail_info st2 ReadErr.eof).1] at hleft
        exact ⟨_, streamTail_panic_of_eof_pos st2 hleft⟩
    obtain ⟨msg, hmsg⟩ := hp
    have hf := streamFrom_of_panic st r rest msg hmsg
    exact ⟨msg, hmsg, hf, by rw [hf]; exact fun h => nomatch h⟩
  · intro info script h
    exact connectLoop_returned script _ h

/-- C6, as amended. A non-EOF read error while bytes remain is fatal: the pass writes
nothing and leaves `bytesRead`, the part file and the list of requests as they are, the
streaming loop ends, and `downloadChunk` panics with "receive data from server is not
enough" without sending another GET.  What is retried is a failed connection attempt:
the next GET then carries the `Range` from `startOffset + bytesRead` to `endOffset`. -/
theorem downloadChunk_read_error_is_fatal :
    (∀ (st : ChunkState) (r : ReadResult) (rest : List ReadResult) (msg : String),
      r.err = ReadErr.other msg → 0 < updateLeft st.info →
      (streamStep st r).1 = Control.exit ∧
      (streamStep st r).2.info = st.info ∧
      (streamStep st r).2.file = st.file ∧
      (streamStep st r).2.writes = st.writes ∧
      (streamFrom st (r :: rest)).1
        = Exit.panicked "receive data from server is not enough" ∧
      (streamFrom st (r :: rest)).2.requests = st.requests ∧
      (streamFrom st (r :: rest)).2.info.bytesRead = st.info.bytesRead) ∧
    (∀ (st : ChunkState) (rest : List ConnResult),
      connectLoop st (ConnResult.failed :: rest)
        = connectLoop
            { st with
              requests := st.requests ++
                [(wrap64 (st.info.startOffset + st.info.bytesRead), st.info.endOffset)]
              info := { st.info with retrying := true } }
            rest) := by
  constructor
  · intro st r rest msg he hleft
    have hs : streamStep st r
        = (Control.exit, { st with log := st.log ++ ["Error while request: " ++ msg] }) := by
      unfold streamStep
      simp only [he]
    have hexit : (streamStep st r).1 = Control.exit := by rw [hs]
    obtain ⟨f1, f2⟩ := streamFrom_of_exit st r rest hexit
    have hnc : isComplete (streamStep st r).2.info = false := by
      rw [hs]
      unfold isComplete
      simp only [beq_eq_false_iff_ne, ne_eq]
      omega
    refine ⟨hexit, by rw [hs], by rw [hs], by rw [hs], ?_, by rw [f2, hs], by rw [f2, hs]⟩
    rw [f1, hnc]
    rfl
  · intro st rest
    rfl

/-! ## Degenerate chunks -/

/-- With no bytes remaining, the part of a pass after the read ends the loop and
writes nothing. -/
theorem streamData_of_left_zero (st : ChunkState) (data : List Byte) (err : ReadErr)
    (h : updateLeft st.info = 0) :
    (streamData st data err).1 = Control.exit ∧ (streamData st data err).2.info = st.info ∧
    (streamData st data err).2.file = st.file ∧
    (streamData st data err).2.writes = st.writes := by
  have hw : ∀ (st1 : ChunkState) (n : Int),
      writeChunk st1 data (updateLeft st.info) n = some st1 := by
    intro st1 n
    unfold writeChunk
    rw [if_neg (by omega)]
  unfold streamData
  simp only [hw]
  by_cases hover : (data.length : Int) > updateLeft st.info
  · simp only [if_pos hover]
    obtain ⟨i1, i2, i3, -, -⟩ := streamTail_info
      { st with log := st.log ++ ["remote server doesn't implement the protocol properly"] }
      err
    exact ⟨streamTail_exit_of_zero _ _ h, i1, i2, i3⟩
  · simp only [if_neg hover]
    obtain ⟨i1, i2, i3, -, -⟩ := streamTail_info st err
    exact ⟨streamTail_exit_of_zero _ _ h, i1, i2, i3⟩

/-- With no bytes remaining, a pass ends the loop and writes nothing. -/
theorem streamStep_of_left_zero (st : ChunkState) (r : ReadResult)
    (h : updateLeft st.info = 0) :
    (streamStep st r).1 = Control.exit ∧ (streamStep st r).2.info = st.info ∧
    (streamStep st r).2.file = st.file ∧ (streamStep st r).2.writes = st.writes := by
  unfold streamStep
  cases hr : r.err with
  | other msg => exact ⟨rfl, rfl, rfl, rfl⟩
  | none => exact streamData_of_left_zero st r.data ReadErr.none h
  | eof => exact streamData_of_left_zero st r.data ReadErr.eof h

/-- With no bytes remaining, the streaming phase writes nothing and never panics, and
it returns once the body has answered one read. -/
theorem streamFrom_of_left_zero (st : ChunkState) (body : List ReadResult)
    (h : updateLeft st.info = 0) :
    (∀ msg, (streamFrom st body).1 ≠ Exit.panicked msg) ∧
    (streamFrom st body).2.info = st.info ∧ (streamFrom st body).2.file = st.file ∧
    (streamFrom st body).2.writes = st.writes ∧
    (body ≠ [] → (streamFrom st body).1 = Exit.returned) := by
  cases body with
  | nil =>
    exact ⟨(fun msg hm => nomatch hm), rfl, rfl, rfl, fun hne => absurd rfl hne⟩
  | cons r rest =>
    obtain ⟨s1, s2, s3, s4⟩ := streamStep_of_left_zero st r h
    obtain ⟨f1, f2⟩ := streamFrom_of_exit st r rest s1
    have hc : isComplete (streamStep st r).2.info = true := by
      rw [s2]
      unfold isComplete
      rw [h]
      rfl
    rw [hc] at f1
    refine ⟨?_, by rw [f2, s2], by rw [f2, s3], by rw [f2, s4], fun _ => by rw [f1]; rfl⟩
    intro msg hm
    rw [f1] at hm
    simp at hm

/-- With no bytes remaining, the outer loop writes nothing and never panics. -/
theorem connectLoop_of_left_zero (script : List ConnResult) : ∀ st : ChunkState,
    updateLeft st.info = 0 →
    (∀ msg, (connectLoop st script).1 ≠ Exit.panicked msg) ∧
    (connectLoop st script).2.info.bytesRead = st.info.bytesRead ∧
    (connectLoop st script).2.file = st.file ∧
    (connectLoop st script).2.writes = st.writes := by
  induction script with
  | nil =>
    intro st _
    exact ⟨(fun msg hm => nomatch hm), rfl, rfl, rfl⟩
  | cons c rest ih =>
    intro st h
    cases c with
    | failed => exact ih _ h
    | connected now body =>
      obtain ⟨a1, a2, a3, a4, -⟩ := streamFrom_of_left_zero
        { st with
          requests := st.requests ++
            [(wrap64 (st.info.startOffset + st.info.bytesRead), st.info.endOffset)]
          info := { st.info with retrying := false, startTime := now } }
        body h
      refine ⟨a1, ?_, a3, a4⟩
      show (streamFrom _ body).2.info.bytesRead = st.info.bytesRead
      rw [a2]

/-- With no bytes remaining, the outer loop returns at the first connection whose body
answers a read, however many attempts failed before. -/
theorem connectLoop_returns_of_left_zero (k : Nat) (now : Int) (r : ReadResult)
    (rest : List ReadResult) (tail : List ConnResult) : ∀ st : ChunkState,
    updateLeft st.info = 0 →
    (connectLoop st
      (List.replicate k ConnResult.failed ++ ConnResult.connected now (r :: rest) :: tail)).1
      = Exit.returned := by
  induction k with
  | zero =>
    intro st h
    exact (streamFrom_of_left_zero
      { st with
        requests := st.requests ++
          [(wrap64 (st.info.startOffset + st.info.bytesRead), st.info.endOffset)]
        info := { st.info with retrying := false, startTime := now } }
      (r :: rest) h).2.2.2.2 (by simp)
  | succ k ih =>
    intro st h
    exact ih _ h

/-- A chunk with `startOffset = endOffset + 1` is already complete: on a fresh record and for
every script of the network `downloadChunk` writes nothing, leaves the part file empty
and `bytesRead` at 0 and does not panic; and it returns at the first connection whose
body answers one read, whatever that read delivers and however many connection attempts
failed before. -/
theorem downloadChunk_degenerate (info : downloadInfo)
    (hdeg : info.startOffset = info.endOffset + 1) (hfresh : info.bytesRead = 0) :
    (∀ script : List ConnResult,
      (∀ msg, (downloadChunk info script).1 ≠ Exit.panicked msg) ∧
      (downloadChunk info script).2.writes = [] ∧
      (downloadChunk info script).2.file = [] ∧
      (downloadChunk info script).2.info.bytesRead = 0) ∧
    (∀ (k : Nat) (now : Int) (r : ReadResult) (rest : List ReadResult)
      (tail : List ConnResult),
      (downloadChunk info
        (List.replicate k ConnResult.failed
          ++ ConnResult.connected now (r :: rest) :: tail)).1 = Exit.returned) := by
  have hz : updateLeft info = 0 := by
    unfold updateLeft
    rw [hdeg, hfresh]
    unfold wrap64
    omega
  constructor
  · intro script
    obtain ⟨a1, a2, a3, a4⟩ := connectLoop_of_left_zero script
      { info := info, file := [], writes := [], requests := [], progress := [], log := [] } hz
    exact ⟨a1, a4, a3, by rw [← hfresh]; exact a2⟩
  · intro k now r rest tail
    exact connectLoop_returns_of_left_zero k now r rest tail _ hz

/-- Every degenerate range of a plan has `startOffset = endOffset + 1`. -/
theorem planRanges_degenerate {fileSize numThreads : Int} (h0 : 0 ≤ fileSize)
    (h63 : fileSize < 9223372036854775808) (hn : 1 ≤ numThreads) {i : Nat} {a : downloadInfo}
    (h : (planRanges fileSize numThreads)[i]? = some a) (hdeg : a.endOffset < a.startOffset) :
    a.startOffset = a.endOffset + 1 ∧ a.bytesRead = 0 := by
  obtain ⟨hi, hs, he, hb⟩ := planRanges_entry h0 h63 hn h
  obtain ⟨p0, p1⟩ := index_mul_chunkSize_le h0 hn hi
  obtain ⟨c0, -, -, -⟩ := chunkSize_facts h0 hn
  refine ⟨?_, hb⟩
  rw [hs, he] at hdeg ⊢
  split_ifs at hdeg ⊢ <;> omega

/-- C7. Degenerate chunks are already complete: for every chunk that `Start` plans
(`fileSize ≥ 0`, `numThreads ≥ 1`) with `startOffset > endOffset` and for every script
of the network, `downloadChunk` writes nothing, leaves the part file empty and
`bytesRead` at 0 and does not panic; and it returns, as complete, at the first
connection whose body answers one read, whatever that read and the later ones deliver
and however many connection attempts failed before. -/
theorem downloadChunk_degenerate_planned (fileSize numThreads : Int) (h0 : 0 ≤ fileSize)
    (h63 : fileSize < 9223372036854775808) (hn : 1 ≤ numThreads) (i : Nat) (a : downloadInfo)
    (hplan : (planRanges fileSize numThreads)[i]? = some a)
    (hdeg : a.endOffset < a.startOffset) :
    (∀ script : List ConnResult,
      (∀ msg, (downloadChunk a script).1 ≠ Exit.panicked msg) ∧
      (downloadChunk a script).2.writes = [] ∧
      (downloadChunk a script).2.file = [] ∧
      (downloadChunk a script).2.info.bytesRead = 0) ∧
    (∀ (k : Nat) (now : Int) (r : ReadResult) (rest : List ReadResult)
      (tail : List ConnResult),
      (downloadChunk a
        (List.replicate k ConnResult.failed
          ++ ConnResult.connected now (r :: rest) :: tail)).1 = Exit.returned ∧
      updateLeft (downloadChunk a
        (List.replicate k ConnResult.failed
          ++ ConnResult.connected now (r :: rest) :: tail)).2.info = 0) := by
  obtain ⟨h1, h2⟩ := planRanges_degenerate h0 h63 hn hplan hdeg
  obtain ⟨d1, d2⟩ := downloadChunk_degenerate a h1 h2
  refine ⟨d1, ?_⟩
  intro k now r rest tail
  exact ⟨d2 k now r rest tail, connectLoop_returned _ _ (d2 k now r rest tail)⟩

/-! ## `Start`, `mergeFiles` and `Update` -/

/-- A job that `Start` hands to the fetchers: the thread count is positive, the chunk
records are the plan for the size and thread count of the job, the size and the
checksum are those of the HEAD response, and the hash is set when a checksum is. -/
theorem Start_ok {dl dl1 : Downloader} {head : Except String HeadResponse}
    {probe : ProbeResult} (h : Start dl head probe = Except.ok dl1) :
    1 ≤ dl1.numThreads ∧ dl1.numThreads = dl.numThreads ∧
    dl1.downloadInfos = planRanges dl1.fileSize dl1.numThreads ∧
    (dl1.checksum ≠ "" → dl1.hash = some []) ∧
    ∃ resp, head = Except.ok resp ∧ dl1.fileSize = resp.contentLength ∧
      dl1.checksum = resp.contentMd5 := by
  have hr : ∀ (d : Downloader) (r : Option (String × String)),
      (applyRedirect d r).numThreads = d.numThreads ∧
      (applyRedirect d r).checksum = d.checksum ∧ (applyRedirect d r).hash = d.hash ∧
      (applyRedirect d r).fileSize = d.fileSize ∧
      (applyRedirect d r).downloadInfos = d.downloadInfos := by
    intro d r
    cases r with
    | none => exact ⟨rfl, rfl, rfl, rfl, rfl⟩
    | some p => exact ⟨rfl, rfl, rfl, rfl, rfl⟩
  have hi : ∀ d : Downloader,
      (initHash d).numThreads = d.numThreads ∧ (initHash d).checksum = d.checksum ∧
      (initHash d).fileSize = d.fileSize ∧
      ((initHash d).checksum ≠ "" → (initHash d).hash = some []) := by
    intro d
    unfold initHash
    by_cases hc : d.checksum = ""
    · rw [if_neg (by simpa using hc)]
      exact ⟨rfl, rfl, rfl, fun h => absurd hc h⟩
    · rw [if_pos hc]
      exact ⟨rfl, rfl, rfl, fun _ => rfl⟩
  cases head with
  | error e => exact absurd h (fun h => nomatch h)
  | ok resp =>
    unfold Start at h
    simp only at h
    obtain ⟨i1, i2, i3, i4⟩ := hi
      { applyRedirect dl resp.redirect with
        checksum := resp.contentMd5
        fileSize := resp.contentLength }
    obtain ⟨n1, -, -, -, -⟩ := hr dl resp.redirect
    generalize initHash
      { applyRedirect dl resp.redirect with
        checksum := resp.contentMd5
        fileSize := resp.contentLength } = d at h i1 i2 i3 i4
    simp only at i1 i2 i3
    by_cases hcl : resp.contentLengthHeader = ""
    · rw [if_pos hcl] at h
      exact absurd h (fun h => nomatch h)
    · rw [if_neg hcl] at h
      by_cases hz : d.numThreads = 0
      · rw [if_pos hz] at h
        exact absurd h (fun h => nomatch h)
      · rw [if_neg hz] at h
        by_cases hneg : d.numThreads < 0
        · rw [if_pos hneg] at h
          exact absurd h (fun h => nomatch h)
        · rw [if_neg hneg] at h
          by_cases hs : checkSupport resp = true
          · rw [if_pos hs] at h
            have hd := Except.ok.inj h
            subst hd
            exact ⟨by show 1 ≤ d.numThreads; omega, by show d.numThreads = dl.numThreads; omega,
              rfl, i4, resp, rfl, i3, i2⟩
          · rw [if_neg hs] at h
            cases probe with
            | transportError e => exact absurd h (fun h => nomatch h)
            | status code redirect =>
              simp only at h
              by_cases hcode : code ≠ 206
              · rw [if_pos hcode] at h
                exact absurd h (fun h => nomatch h)
              · rw [if_neg hcode] at h
                have hd := Except.ok.inj h
                subst hd
                obtain ⟨m1, m2, m3, m4, m5⟩ := hr
                  { d with downloadInfos := planRanges d.fileSize d.numThreads } redirect
                simp only at m1 m2 m3 m4 m5
                refine ⟨by rw [m1]; omega, by rw [m1]; omega, by rw [m5, m4, m1], ?_,
                  resp, rfl, by rw [m4]; exact i3, by rw [m2]; exact i2⟩
                rw [m2, m3]
                exact i4

/-- Merge is order-preserving for an original of at most `maxRW` bytes: when the part
file of every index `i` holds exactly the bytes `original[startOffset_i .. endOffset_i]`
of the range that `Start` plans for `i` from the length of `original` and
`numThreads ≥ 1` (and the hash is set when a checksum is, as `Start` leaves it),
`mergeFiles` returns a nil error and the output file holds exactly `original`. -/
theorem mergeFiles_reproduces_small (w : World) (original : List Byte)
    (hsmall : original.length ≤ maxRW) (hn : 1 ≤ w.dl.numThreads)
    (hhash : w.dl.checksum ≠ "" → ∃ written, w.dl.hash = some written)
    (hparts : ∀ (i : Nat) (a : downloadInfo),
      (planRanges original.length w.dl.numThreads)[i]? = some a →
      w.disk.parts i = some (byteRange original a.startOffset a.endOffset)) :
    (mergeFiles w).1 = none ∧ (mergeFiles w).2.disk.output = some original := by
  have h63 : (original.length : Int) < 9223372036854775808 := by
    have : maxRW = 1073741824 := rfl
    omega
  have hex : ∀ j, j < w.dl.numThreads.toNat → ∃ buf, w.disk.parts j = some buf := by
    intro j hj
    have hget : (planRanges original.length w.dl.numThreads)[j]? =
        some (planChunk original.length w.dl.numThreads
          (wrap64 (Int.tdiv original.length w.dl.numThreads)) j) := by
      rw [planRanges_getElem?, if_pos hj]
    exact ⟨_, hparts j _ hget⟩
  obtain ⟨m1, m2, -, -⟩ := mergeFiles_spec w hn hex hhash
  refine ⟨m1, ?_⟩
  rw [m2, partsConcat_plan original w.dl.numThreads w.disk.parts hsmall h63 hn hparts]

/-- What `Update` does for a job with a checksum and the hash set, whose part files
exist: it merges without error and then prints the line of line 197, made from the
checksum and from the digest of the bytes written to the hash, which are the bytes
written to the output file. -/
theorem Update_spec (md5 : List Byte → List Byte) (w : World)
    (hn : 1 ≤ w.dl.numThreads)
    (hparts : ∀ j, j < w.dl.numThreads.toNat → ∃ buf, w.disk.parts j = some buf)
    (hc : w.dl.checksum ≠ "") (written : List Byte) (hh : w.dl.hash = some written) :
    (Update md5 w).1 = none ∧
    (Update md5 w).2.disk.output = some (partsConcat w.disk.parts 0 w.dl.numThreads.toNat) ∧
    (Update md5 w).2.stdout
      = (mergeFiles { w with dl := { w.dl with done := true } }).2.stdout ++
        [w.dl.checksum ++ " checksum of the downloaded file: " ++
          formatX (hexEncode
            (md5 (written ++ partsConcat w.disk.parts 0 w.dl.numThreads.toNat)))] := by
  obtain ⟨m1, m2, m3, m4⟩ := mergeFiles_spec { w with dl := { w.dl with done := true } } hn
    hparts (fun _ => ⟨written, hh⟩)
  unfold Update
  simp only
  generalize mergeFiles { w with dl := { w.dl with done := true } } = out at m1 m2 m3 m4
  obtain ⟨e, w1⟩ := out
  simp only [if_pos hc, hh, Option.map_some'] at m1 m2 m3 m4
  subst m1
  have hc1 : w1.dl.checksum ≠ "" := by rw [m4]; exact hc
  simp only [hc1, ne_eq, not_false_eq_true, if_true, m3, m2, checksumLine, checksumData,
    Option.getD_some, m4, and_self]
  rw [if_pos hc]
  exact ⟨rfl, m2, rfl⟩

/-- C9, as amended. For a job with an expected checksum captured and the hash set, whose
part files exist, `Update` merges without error and then prints one more line: the
expected checksum, the words " checksum of the downloaded file: ", and a text computed,
by one fixed function, from the digest of the bytes fed to the hash, which are the bytes
written to the output file.  The expected checksum enters the line as its first part
only: `Update` makes no comparison and prints a line of this form whether or not the two
values agree. -/
theorem Update_prints_checksum_line :
    ∃ render : List Byte → String, ∀ (md5 : List Byte → List Byte) (w : World),
      1 ≤ w.dl.numThreads →
      (∀ j, j < w.dl.numThreads.toNat → ∃ content, w.disk.parts j = some content) →
      w.dl.checksum ≠ "" → ∀ written : List Byte, w.dl.hash = some written →
      (Update md5 w).1 = none ∧
      ∃ out, (Update md5 w).2.disk.output = some out ∧
        (Update md5 w).2.stdout
          = (mergeFiles { w with dl := { w.dl with done := true } }).2.stdout ++
            [w.dl.checksum ++ " checksum of the downloaded file: " ++
              render (md5 (written ++ out))] := by
  refine ⟨fun digest => formatX (hexEncode digest), ?_⟩
  intro md5 w hn hparts hc written hh
  obtain ⟨u1, u2, u3⟩ := Update_spec md5 w hn hparts hc written hh
  exact ⟨u1, _, u2, u3⟩

/-! ## Progress totals -/

/-- The total that a frame of `printProgress` accumulates over a plan, when no bar test
fires, is `fileSize - numThreads`: each chunk enters with `endOffset - startOffset`, one
less than its size. -/
theorem frameLoop_totalTotalBytes {fileSize numThreads : Int} (h0 : 0 ≤ fileSize)
    (h63 : fileSize < 9223372036854775808) (hn : 1 ≤ numThreads)
    (hnt : numThreads < 9223372036854775808) (k : Nat) :
    ∀ (i : Nat) (f : Frame), i + (k + 1) = numThreads.toNat →
      (∀ j : Nat,
        (f.infos[j]?).map (fun c : downloadInfo => (c.startOffset, c.endOffset))
        = ((planRanges fileSize numThreads)[j]?).map
            (fun c : downloadInfo => (c.startOffset, c.endOffset))) →
      f.totalTotalBytes = (i : Int) * Int.tdiv fileSize numThreads - i →
      ∃ f1, frameLoop (fun _ _ => false) f (k + 1) i = some f1 ∧
        f1.totalTotalBytes = fileSize - numThreads := by
  obtain ⟨c0, c1, c2, c3⟩ := chunkSize_facts h0 hn
  induction k with
  | zero =>
    intro i f hik hrel htot
    have hget : (planRanges fileSize numThreads)[i]? =
        some (planChunk fileSize numThreads (wrap64 (Int.tdiv fileSize numThreads)) i) := by
      rw [planRanges_getElem?, if_pos (by omega)]
    obtain ⟨hi, hs, he, -⟩ := planRanges_entry h0 h63 hn hget
    obtain ⟨p0, p1⟩ := index_mul_chunkSize_le h0 hn hi
    have hr := hrel i
    rw [hget, Option.map_some'] at hr
    cases hfi : f.infos[i]? with
    | none => rw [hfi] at hr; exact absurd hr (by simp)
    | some info =>
      rw [hfi, Option.map_some'] at hr
      have hpair := Option.some.inj hr
      simp only [Prod.mk.injEq] at hpair
      obtain ⟨hs1, he1⟩ := hpair
      rw [hs] at hs1
      rw [he, if_pos (by omega)] at he1
      simp only [frameLoop, hfi, Bool.false_eq_true, if_false]
      refine ⟨_, rfl, ?_⟩
      show wrap64 (f.totalTotalBytes + wrap64 (info.endOffset - info.startOffset))
        = fileSize - numThreads
      rw [htot, hs1, he1]
      have hi2 : (i : Int) = numThreads - 1 := by omega
      have e1 : wrap64 (fileSize - 1 - (i : Int) * Int.tdiv fileSize numThreads)
          = fileSize - 1 - (i : Int) * Int.tdiv fileSize numThreads :=
        wrap64_of_range (by omega) (by omega)
      rw [e1, wrap64_of_range (by omega) (by omega)]
      omega
  | succ k ih =>
    intro i f hik hrel htot
    have hget : (planRanges fileSize numThreads)[i]? =
        some (planChunk fileSize numThreads (wrap64 (Int.tdiv fileSize numThreads)) i) := by
      rw [planRanges_getElem?, if_pos (by omega)]
    obtain ⟨hi, hs, he, -⟩ := planRanges_entry h0 h63 hn hget
    obtain ⟨p0, p1⟩ := index_mul_chunkSize_le h0 hn hi
    have hr := hrel i
    rw [hget, Option.map_some'] at hr
    cases hfi : f.infos[i]? with
    | none => rw [hfi] at hr; exact absurd hr (by simp)
    | some info =>
      rw [hfi, Option.map_some'] at hr
      have hpair := Option.some.inj hr
      simp only [Prod.mk.injEq] at hpair
      obtain ⟨hs1, he1⟩ := hpair
      rw [hs] at hs1
      rw [he, if_neg (by omega)] at he1
      have hstep : frameLoop (fun _ _ => false) f (k + 1 + 1) i
          = frameLoop (fun _ _ => false)
              { totalBytesRead := wrap64 (f.totalBytesRead + info.bytesRead)
                totalTotalBytes :=
                  wrap64 (f.totalTotalBytes + wrap64 (info.endOffset - info.startOffset))
                infos := f.infos.set i { info with dealt := info.bytesRead } }
              (k + 1) (i + 1) := by
        simp only [frameLoop, hfi, Bool.false_eq_true, if_false]
      rw [hstep]
      apply ih (i + 1) _ (by omega)
      · intro j
        show ((f.infos.set i { info with dealt := info.bytesRead })[j]?).map
            (fun c => (c.startOffset, c.endOffset)) = _
        rw [List.getElem?_set]
        by_cases hji : i = j
        · subst hji
          have hlt : i < f.infos.length := by
            by_contra hcon
            rw [List.getElem?_eq_none (by omega)] at hfi
            exact absurd hfi (by simp)
          rw [if_pos rfl, if_pos hlt, ← hrel i, hfi]
          rfl
        · rw [if_neg hji]
          exact hrel j
      · show wrap64 (f.totalTotalBytes + wrap64 (info.endOffset - info.startOffset))
          = ((i + 1 : Nat) : Int) * Int.tdiv fileSize numThreads - ((i + 1 : Nat) : Int)
        rw [htot, hs1, he1]
        have e1 : wrap64 ((i : Int) * Int.tdiv fileSize numThreads
            + Int.tdiv fileSize numThreads - 1 - (i : Int) * Int.tdiv fileSize numThreads)
            = Int.tdiv fileSize numThreads - 1 := by
          rw [wrap64_of_range (by omega) (by omega)]
          omega
        rw [e1, wrap64_of_range (by omega) (by omega)]
        push_cast
        ring

/-- For every plan of `Start` with `fileSize ≥ 0` and `numThreads ≥ 1`, whatever the
fetchers have read, a frame of `printProgress` in which no bar test fires shows the
total `fileSize - numThreads`. -/
theorem frameTotals_plan (dl : Downloader) (h0 : 0 ≤ dl.fileSize)
    (h63 : dl.fileSize < 9223372036854775808) (hn : 1 ≤ dl.numThreads)
    (hnt : dl.numThreads < 9223372036854775808)
    (hplan : dl.downloadInfos.map (fun c => (c.startOffset, c.endOffset))
      = (planRanges dl.fileSize dl.numThreads).map (fun c => (c.startOffset, c.endOffset))) :
    ∃ f, frameTotals (fun _ _ => false) dl = some f ∧
      f.totalTotalBytes = dl.fileSize - dl.numThreads := by
  obtain ⟨k, hk⟩ : ∃ k, dl.numThreads.toNat = k + 1 := ⟨dl.numThreads.toNat - 1, by omega⟩
  unfold frameTotals
  rw [hk]
  apply frameLoop_totalTotalBytes h0 h63 hn hnt k 0 _ (by omega)
  · intro j
    have := congrArg (fun l => l[j]?) hplan
    simpa [List.getElem?_map] using this
  · simp

/-! ## Evaluations and instances -/

/-- C6, counterexample. A chunk `[0, 9]`: the first response delivers 3 bytes and then a
non-EOF read error, and a second connection would deliver the other 7.  The fetcher
panics with 7 bytes remaining, having sent one GET only. -/
theorem downloadChunk_read_error_example :
    (downloadChunk (freshChunk 0 9)
      [ConnResult.connected 0 [⟨[1, 2, 3], ReadErr.none⟩, ⟨[], ReadErr.other "reset"⟩],
       ConnResult.connected 1 [⟨[4, 5, 6, 7, 8, 9, 10], ReadErr.eof⟩]]).1
      = Exit.panicked "receive data from server is not enough" ∧
    (downloadChunk (freshChunk 0 9)
      [ConnResult.connected 0 [⟨[1, 2, 3], ReadErr.none⟩, ⟨[], ReadErr.other "reset"⟩],
       ConnResult.connected 1 [⟨[4, 5, 6, 7, 8, 9, 10], ReadErr.eof⟩]]).2.requests
      = [(0, 9)] ∧
    updateLeft (downloadChunk (freshChunk 0 9)
      [ConnResult.connected 0 [⟨[1, 2, 3], ReadErr.none⟩, ⟨[], ReadErr.other "reset"⟩],
       ConnResult.connected 1 [⟨[4, 5, 6, 7, 8, 9, 10], ReadErr.eof⟩]]).2.info = 7 := by
  decide

/-- C2, evaluation. A resource of `maxRW + 1` bytes, `maxRW` zero bytes and then the
byte 1, fetched by one thread: the planned range is `[0, maxRW]` and the part file holds
exactly these bytes of the original, as the claim supposes.  `mergeFiles` returns a nil
error, but the output file holds `maxRW` zero bytes and then the byte 0: the one `Read`
call of line 321 has not filled the last byte of the buffer.  The output is not the
original. -/
theorem mergeFiles_large_part_example :
    (sampleLargePart.length : Int) = 1073741825 ∧
    (planRanges 1073741825 1).map (fun c => (c.startOffset, c.endOffset))
      = [(0, 1073741824)] ∧
    sampleLargeWorld.disk.parts 0 = some (byteRange sampleLargePart 0 1073741824) ∧
    (mergeFiles sampleLargeWorld).1 = none ∧
    (mergeFiles sampleLargeWorld).2.disk.output = some (List.replicate maxRW 0 ++ [0]) ∧
    (mergeFiles sampleLargeWorld).2.disk.output ≠ some sampleLargePart := by
  have hlen : sampleLargePart.length = 1073741825 := by
    unfold sampleLargePart
    rw [List.length_append, List.length_replicate]
    rfl
  have hrange : byteRange sampleLargePart 0 1073741824 = sampleLargePart := by
    unfold byteRange
    have e1 : (0 : Int).toNat = 0 := rfl
    have e2 : ((1073741824 : Int) - 0 + 1).toNat = 1073741825 := by decide
    rw [e1, e2, List.drop_zero, List.take_of_length_le (le_of_eq hlen)]
  have hread : readOnce sampleLargePart = List.replicate maxRW 0 ++ [0] := by
    unfold sampleLargePart
    rw [readOnce_append _ _ (List.length_replicate _ _)]
    rfl
  have hout : (mergeFiles sampleLargeWorld).2.disk.output
      = some (List.replicate maxRW 0 ++ [0]) := by
    obtain ⟨-, m2, -, -⟩ := mergeFiles_spec sampleLargeWorld (by decide)
      (fun j hj => by
        have hj1 : j < 1 := hj
        match j, hj1 with
        | 0, _ => exact ⟨sampleLargePart, rfl⟩)
      (fun h => absurd rfl h)
    rw [m2]
    have hn : sampleLargeWorld.dl.numThreads.toNat = 1 := rfl
    rw [hn, partsConcat_succ]
    have hp : (sampleLargeWorld.disk.parts 0).getD [] = sampleLargePart := rfl
    rw [hp, hread]
    have hz : partsConcat sampleLargeWorld.disk.parts (0 + 1) 0 = [] := rfl
    rw [hz, List.append_nil]
  refine ⟨?_, by decide, ?_, ?_, hout, ?_⟩
  · rw [hlen]
    rfl
  · rw [hrange]
    rfl
  · exact (mergeFiles_spec sampleLargeWorld (by decide)
      (fun j hj => by
        have hj1 : j < 1 := hj
        match j, hj1 with
        | 0, _ => exact ⟨sampleLargePart, rfl⟩)
      (fun h => absurd rfl h)).1
  · rw [hout]
    intro h
    have h1 := Option.some.inj h
    unfold sampleLargePart at h1
    have h2 := List.append_cancel_left h1
    exact absurd h2 (by decide)

/-- C8, counterexample. For `fileSize = 3` and `numThreads = 10` the range of index 9
is `[0, 2]`: it is not true that every range of index 3 or more has
`startOffset > endOffset`. -/
theorem planRanges_3_10_last_not_degenerate :
    ¬ ∀ (i : Nat) (a : downloadInfo), 3 ≤ i → (planRanges 3 10)[i]? = some a →
      a.endOffset < a.startOffset := by
  intro h
  have h9 : (planRanges 3 10)[9]? = some (freshChunk 0 2) := by rfl
  have := h 9 (freshChunk 0 2) (by decide) h9
  revert this
  decide

/-- C8, as amended. For `fileSize = 3` and `numThreads = 10` the ranges of indices 0
to 8 are `(0, -1)`, with `startOffset > endOffset` and 0 bytes to fetch, and the range
of the last index 9 is `(0, 2)`, with all 3 bytes to fetch. -/
theorem planRanges_3_10 :
    (planRanges 3 10).map (fun c => (c.startOffset, c.endOffset, updateLeft c))
      = [(0, -1, 0), (0, -1, 0), (0, -1, 0), (0, -1, 0), (0, -1, 0), (0, -1, 0),
         (0, -1, 0), (0, -1, 0), (0, -1, 0), (0, 2, 3)] := by
  decide

/-- C9, counterexample. The expected checksum "abc" differs from the digest of the
merged bytes, and `Update` prints the lines of the merge and the checksum line; with
the expected checksum equal to the digest in hexadecimal it prints the same lines, the
checksum line with the other expected value.  No line reports a mismatch. -/
theorem Update_prints_no_mismatch_example :
    hexEncode (md5OfEmpty []) = "d41d8cd98f00b204e9800998ecf8427e" ∧
    (Update md5OfEmpty (sampleEmptyWorld "abc")).1 = none ∧
    (Update md5OfEmpty (sampleEmptyWorld "abc")).2.stdout
      = ["merging files ...", "merging files ...  0  DONE", "files saved at  /tmp/out",
         "abc checksum of the downloaded file: "
           ++ "6434316438636439386630306232303465393830303939386563663834323765"] ∧
    (Update md5OfEmpty (sampleEmptyWorld "d41d8cd98f00b204e9800998ecf8427e")).2.stdout
      = ["merging files ...", "merging files ...  0  DONE", "files saved at  /tmp/out",
         "d41d8cd98f00b204e9800998ecf8427e checksum of the downloaded file: "
           ++ "6434316438636439386630306232303465393830303939386563663834323765"] := by
  decide

/-- C10, evaluation. A job of 4 threads for 1000 bytes whose fetchers have all returned,
each with 250 bytes read and 0 remaining: the frame of `printProgress` sums 1000 bytes
read but a total of 996, not 1000; and if the bar test of the first chunk fired, the
sums would be 250 and 249. -/
theorem printProgress_total_example :
    (sampleDoneJob.downloadInfos.map fun c => (c.bytesRead, updateLeft c))
      = [(250, 0), (250, 0), (250, 0), (250, 0)] ∧
    ∀ barBreaks : Int → Int → Bool,
      (frameTotals barBreaks sampleDoneJob).map
        (fun f => (f.totalBytesRead, f.totalTotalBytes))
        = some (if barBreaks 250 249 then (250, 249) else (1000, 996)) := by
  refine ⟨by decide, ?_⟩
  intro barBreaks
  have e : sampleDoneJob.downloadInfos
      = [{ freshChunk 0 249 with bytesRead := 250 }, { freshChunk 250 499 with bytesRead := 250 },
         { freshChunk 500 749 with bytesRead := 250 },
         { freshChunk 750 999 with bytesRead := 250 }] := by
    decide
  have en : sampleDoneJob.numThreads.toNat = 4 := by decide
  have w1 : wrap64 249 = 249 := by decide
  have w2 : wrap64 498 = 498 := by decide
  have w3 : wrap64 747 = 747 := by decide
  have w4 : wrap64 996 = 996 := by decide
  have v1 : wrap64 250 = 250 := by decide
  have v2 : wrap64 500 = 500 := by decide
  have v3 : wrap64 750 = 750 := by decide
  have v4 : wrap64 1000 = 1000 := by decide
  unfold frameTotals
  rw [e, en]
  cases h : barBreaks 250 249 <;>
    simp [frameLoop, freshChunk, downloadInfo.zero, h, w1, w2, w3, w4, v1, v2, v3, v4]

/-- C1, instance: the plan for 1000 bytes and 4 threads. -/
theorem planRanges_partition_witness :
    (0 : Int) ≤ 1000 ∧ (1000 : Int) < 9223372036854775808 ∧ (1 : Int) ≤ 4 ∧
    ((planRanges 1000 4).length = (4 : Int).toNat ∧
    ((planRanges 1000 4)[0]?).map downloadInfo.startOffset = some 0 ∧
    ((planRanges 1000 4)[(4 : Int).toNat - 1]?).map downloadInfo.endOffset
      = some (1000 - 1) ∧
    (∀ (i : Nat) (a b : downloadInfo), (planRanges 1000 4)[i]? = some a →
      (planRanges 1000 4)[i + 1]? = some b →
      b.startOffset = a.endOffset + 1) ∧
    (∀ (i j : Nat) (a b : downloadInfo), i < j →
      (planRanges 1000 4)[i]? = some a →
      (planRanges 1000 4)[j]? = some b →
      a.endOffset < b.startOffset) ∧
    (∀ x : Int, (0 ≤ x ∧ x < 1000) ↔
      ∃ a ∈ planRanges 1000 4, a.startOffset ≤ x ∧ x ≤ a.endOffset)) :=
  ⟨by decide, by decide, by decide,
    planRanges_partition 1000 4 (by decide) (by decide) (by decide)⟩

/-- C3, instance: a chunk `[0, 9]` to which the server sends 3 and then 12 bytes. -/
theorem downloadChunk_loop_invariant_witness :
    (freshChunk 0 9).startOffset - 1 ≤ (freshChunk 0 9).endOffset ∧
    (freshChunk 0 9).bytesRead = 0 ∧
    (downloadChunk (freshChunk 0 9) sampleScript).2.writes
      = [(0, [1, 2, 3]), (3, [4, 5, 6, 7, 8, 9, 10])] ∧
    ((∀ w ∈ (downloadChunk (freshChunk 0 9) sampleScript).2.writes,
      0 ≤ w.1 ∧ 0 < (w.2.length : Int) ∧
      w.1 + (w.2.length : Int) - 1 ≤ (freshChunk 0 9).endOffset - (freshChunk 0 9).startOffset) ∧
    (downloadChunk (freshChunk 0 9) sampleScript).2.writes.Pairwise
      (fun a b => a.1 + (a.2.length : Int) ≤ b.1) ∧
    (downloadChunk (freshChunk 0 9) sampleScript).2.progress.Pairwise (fun p q => p ≤ q) ∧
    (∀ p ∈ (downloadChunk (freshChunk 0 9) sampleScript).2.progress,
      0 ≤ p ∧ p ≤ (freshChunk 0 9).endOffset - (freshChunk 0 9).startOffset + 1) ∧
    0 ≤ (downloadChunk (freshChunk 0 9) sampleScript).2.info.bytesRead ∧
    (downloadChunk (freshChunk 0 9) sampleScript).2.info.bytesRead
      ≤ (freshChunk 0 9).endOffset - (freshChunk 0 9).startOffset + 1 ∧
    (∀ r : ReadResult, (downloadChunk (freshChunk 0 9) sampleScript).2.info.bytesRead
      ≤ (streamStep (downloadChunk (freshChunk 0 9) sampleScript).2 r).2.info.bytesRead)) :=
  ⟨by decide, rfl, by decide,
    downloadChunk_loop_invariant (freshChunk 0 9) (by decide) rfl sampleScript⟩

/-- C4, instance: 10 bytes remain and the read returns 15; 10 bytes are written at
offset 10 and `bytesRead` goes from 10 to 20. -/
theorem streamStep_truncates_over_delivery_witness :
    updateLeft sampleStreaming.info = 10 ∧ (sampleRead15.data.length : Int) = 15 ∧
    (streamStep sampleStreaming sampleRead15).2.info.bytesRead = 20 ∧
    (streamStep sampleStreaming sampleRead15).2.file
      = [0, 1, 2, 3, 4, 5, 6, 7, 8, 9, 10, 11, 12, 13, 14, 15, 16, 17, 18, 19] ∧
    ((streamStep sampleStreaming sampleRead15).2.writes
      = sampleStreaming.writes ++ [(sampleStreaming.info.bytesRead,
          sampleRead15.data.take (updateLeft sampleStreaming.info).toNat)] ∧
    ((sampleRead15.data.take (updateLeft sampleStreaming.info).toNat).length : Int)
      = updateLeft sampleStreaming.info ∧
    some (streamStep sampleStreaming sampleRead15).2.file
      = writeAt sampleStreaming.file
          (sampleRead15.data.take (updateLeft sampleStreaming.info).toNat)
          sampleStreaming.info.bytesRead ∧
    (streamStep sampleStreaming sampleRead15).2.info.bytesRead
      = sampleStreaming.info.bytesRead + updateLeft sampleStreaming.info ∧
    (streamStep sampleStreaming sampleRead15).1 = Control.exit ∧
    (streamFrom sampleStreaming (sampleRead15 :: [])).1 = Exit.returned) :=
  ⟨by decide, by decide, by decide, by decide,
    streamStep_truncates_over_delivery sampleStreaming sampleRead15 [] (by decide) (by decide)
      (by decide) (by decide) (fun msg h => nomatch h)⟩

/-- C5, instance: with 10 bytes remaining the stream ends after 3 bytes and the fetcher
panics; and the run of the sample script on a chunk `[0, 9]` returns with 0 bytes
remaining. -/
theorem downloadChunk_under_delivery_witness :
    0 < updateLeft (streamStep sampleStreaming ⟨[10, 11, 12], ReadErr.eof⟩).2.info ∧
    (∃ msg, (streamStep sampleStreaming ⟨[10, 11, 12], ReadErr.eof⟩).1 = Control.panic msg ∧
      (streamFrom sampleStreaming (⟨[10, 11, 12], ReadErr.eof⟩ :: [])).1 = Exit.panicked msg ∧
      (streamFrom sampleStreaming (⟨[10, 11, 12], ReadErr.eof⟩ :: [])).1 ≠ Exit.returned) ∧
    (downloadChunk (freshChunk 0 9) sampleScript).1 = Exit.returned ∧
    updateLeft (downloadChunk (freshChunk 0 9) sampleScript).2.info = 0 :=
  ⟨by decide,
    downloadChunk_under_delivery.1 sampleStreaming ⟨[10, 11, 12], ReadErr.eof⟩ [] rfl
      (by decide),
    by decide,
    downloadChunk_under_delivery.2 (freshChunk 0 9) sampleScript (by decide)⟩

/-- C6 as amended, instance: with 10 bytes remaining a read fails with a non-EOF
error. -/
theorem downloadChunk_read_error_is_fatal_witness :
    0 < updateLeft sampleStreaming.info ∧
    ((streamStep sampleStreaming ⟨[10, 11], ReadErr.other "reset"⟩).1 = Control.exit ∧
    (streamStep sampleStreaming ⟨[10, 11], ReadErr.other "reset"⟩).2.info
      = sampleStreaming.info ∧
    (streamStep sampleStreaming ⟨[10, 11], ReadErr.other "reset"⟩).2.file
      = sampleStreaming.file ∧
    (streamStep sampleStreaming ⟨[10, 11], ReadErr.other "reset"⟩).2.writes
      = sampleStreaming.writes ∧
    (streamFrom sampleStreaming (⟨[10, 11], ReadErr.other "reset"⟩ :: [])).1
      = Exit.panicked "receive data from server is not enough" ∧
    (streamFrom sampleStreaming (⟨[10, 11], ReadErr.other "reset"⟩ :: [])).2.requests
      = sampleStreaming.requests ∧
    (streamFrom sampleStreaming (⟨[10, 11], ReadErr.other "reset"⟩ :: [])).2.info.bytesRead
      = sampleStreaming.info.bytesRead) :=
  ⟨by decide,
    downloadChunk_read_error_is_fatal.1 sampleStreaming ⟨[10, 11], ReadErr.other "reset"⟩ []
      "reset" rfl (by decide)⟩

/-- C7, instance: the range of index 0 planned for 3 bytes and 10 threads, `(0, -1)`. -/
theorem downloadChunk_degenerate_planned_witness :
    (planRanges 3 10)[0]? = some (freshChunk 0 (-1)) ∧
    (freshChunk 0 (-1)).endOffset < (freshChunk 0 (-1)).startOffset ∧
    ((∀ script : List ConnResult,
      (∀ msg, (downloadChunk (freshChunk 0 (-1)) script).1 ≠ Exit.panicked msg) ∧
      (downloadChunk (freshChunk 0 (-1)) script).2.writes = [] ∧
      (downloadChunk (freshChunk 0 (-1)) script).2.file = [] ∧
      (downloadChunk (freshChunk 0 (-1)) script).2.info.bytesRead = 0) ∧
    (∀ (k : Nat) (now : Int) (r : ReadResult) (rest : List ReadResult)
      (tail : List ConnResult),
      (downloadChunk (freshChunk 0 (-1))
        (List.replicate k ConnResult.failed
          ++ ConnResult.connected now (r :: rest) :: tail)).1 = Exit.returned ∧
      updateLeft (downloadChunk (freshChunk 0 (-1))
        (List.replicate k ConnResult.failed
          ++ ConnResult.connected now (r :: rest) :: tail)).2.info = 0)) :=
  ⟨by decide, by decide,
    downloadChunk_degenerate_planned 3 10 (by decide) (by decide) (by decide) 0
      (freshChunk 0 (-1)) (by decide) (by decide)⟩

/-- C9 as amended, instance: one thread, an empty part file and the expected checksum
"abc". -/
theorem Update_prints_checksum_line_witness :
    (1 : Int) ≤ (sampleEmptyWorld "abc").dl.numThreads ∧
    (sampleEmptyWorld "abc").dl.checksum ≠ "" ∧
    (sampleEmptyWorld "abc").dl.hash = some [] ∧
    ∃ text : String,
      (Update md5OfEmpty (sampleEmptyWorld "abc")).1 = none ∧
      (Update md5OfEmpty (sampleEmptyWorld "abc")).2.disk.output = some [] ∧
      (Update md5OfEmpty (sampleEmptyWorld "abc")).2.stdout
        = (mergeFiles { sampleEmptyWorld "abc" with
              dl := { (sampleEmptyWorld "abc").dl with done := true } }).2.stdout ++
          ["abc checksum of the downloaded file: " ++ text] := by
  obtain ⟨render, h⟩ := Update_prints_checksum_line
  obtain ⟨h1, out, h2, h3⟩ := h md5OfEmpty (sampleEmptyWorld "abc") (by decide)
    (fun j hj => by
      have hj1 : j < 1 := hj
      match j, hj1 with
      | 0, _ => exact ⟨[], rfl⟩)
    (by decide) [] rfl
  exact ⟨by decide, by decide, rfl, render (md5OfEmpty ([] ++ out)), h1, by decide, h3⟩

end HttpDownloader
